import Mathlib

/-!
Verification of the Tur commentary alignment and normalization engine
(`merge_tur_separate_commentaries.py`): a shallow embedding of the text
cleaner, shape normalizer, text flattener, key generator, matcher and
the embedded-entries alignment engine, together with proofs about them.
Strings are modelled as `List Char`; Python `None`-able values as
`Option`; the per-unit consumed set as a list of indices with
set-insertion semantics.
-/

/- ### Character-level utilities -/

/-- The whitespace class of the Python regex `\s` (ASCII part): space,
tab, newline, carriage return, vertical tab, form feed. -/
def isWS (c : Char) : Bool :=
  c = ' ' || c = '\t' || c = '\n' || c = '\r' || c = Char.ofNat 11 || c = Char.ofNat 12

/-- Decimal representation of a natural number (Python `str(n)` for `n ≥ 0`). -/
def natToChars (n : Nat) : List Char :=
  if n < 10 then [Nat.digitChar n]
  else natToChars (n / 10) ++ [Nat.digitChar (n % 10)]
  termination_by n
  decreasing_by exact Nat.div_lt_self (by omega) (by omega)

/-- Python `str` of an integer (`f"{siman_num}"`). -/
def intToChars (n : Int) : List Char :=
  if n < 0 then '-' :: natToChars n.natAbs else natToChars n.toNat

/-- Python `int(s)` on a string of decimal digits. -/
def parseNatDigits (s : List Char) : Nat :=
  s.foldl (fun a c => a * 10 + (c.toNat - 48)) 0

/-- Python `str.zfill`: left-pad with zeros up to the given width. -/
def zfill (w : Nat) (s : List Char) : List Char :=
  if w ≤ s.length then s else List.replicate (w - s.length) '0' ++ s

/-- Python format `{n:02d}` for a natural number. -/
def pad2 (n : Nat) : List Char := zfill 2 (natToChars n)

/-- Python format `{n:03d}` for a natural number. -/
def pad3 (n : Nat) : List Char := zfill 3 (natToChars n)

/- ### Text Cleaner (`clean_text` of `merge_tur_separate_commentaries.py`) -/

/-- Python `str.strip`: drop leading and trailing whitespace. -/
def stripWS (s : List Char) : List Char :=
  (((s.dropWhile isWS).reverse).dropWhile isWS).reverse

/-- The pass `re.sub(r'<[^>]+>', '', text)`: repeatedly delete the leftmost
span `<`body`>` whose body is nonempty and free of `>`; where no such span
starts, the character is kept and the scan advances. -/
def removeTags : List Char → List Char
  | [] => []
  | c :: rest =>
    if c = '<' then
      if h : rest.takeWhile (· ≠ '>') = [] ∨ rest.dropWhile (· ≠ '>') = [] then
        '<' :: removeTags rest
      else removeTags ((rest.dropWhile (· ≠ '>')).tail)
    else c :: removeTags rest
  termination_by s => s.length
  decreasing_by
    all_goals simp only [List.length_cons]
    all_goals try omega
    have h1 : (rest.dropWhile (· ≠ '>')).length ≤ rest.length :=
      (List.dropWhile_suffix _).sublist.length_le
    have h2 : rest.dropWhile (· ≠ '>') ≠ [] := fun hh => h (Or.inr hh)
    have h3 : (rest.dropWhile (· ≠ '>')).length ≠ 0 :=
      fun hh => h2 (List.eq_nil_of_length_eq_zero hh)
    rw [List.length_tail]
    omega

/-- The pass `re.sub(r'\s+', ' ', text)`: collapse each maximal whitespace
run to a single space. -/
def collapseWS : List Char → List Char
  | [] => []
  | c :: rest =>
    if isWS c then ' ' :: collapseWS (rest.dropWhile isWS)
    else c :: collapseWS rest
  termination_by s => s.length
  decreasing_by
    all_goals simp only [List.length_cons]
    · exact Nat.lt_succ_of_le ((List.dropWhile_suffix isWS).sublist.length_le)
    · omega

/-- `clean_text` on strings: strip HTML tags, collapse whitespace runs,
trim the ends. -/
def clean_text (s : List Char) : List Char := stripWS (collapseWS (removeTags s))

/- ### Python values -/

/-- A Python dictionary key as seen by the merger: a string or an integer. -/
inductive PyKey where
  | str (s : List Char)
  | int (n : Int)
deriving DecidableEq

/-- A JSON-like Python value as handled by the merger. -/
inductive PyVal where
  | none
  | str (s : List Char)
  | int (n : Int)
  | list (xs : List PyVal)
  | dict (kvs : List (PyKey × PyVal))

/-- The full `clean_text` entry point with its `isinstance(text, str)`
guard: values other than strings are returned unchanged. -/
def clean_text_val : PyVal → PyVal
  | PyVal.str s => PyVal.str (clean_text s)
  | v => v

/- ### Text Flattener (`flatten_to_strings`) -/

mutual

/-- `flatten_to_strings`: collapse a nested value into an ordered list of
trimmed nonempty strings; `cl` is the `clean_text` flag. -/
def flatten_to_strings (cl : Bool) : PyVal → List (List Char)
  | PyVal.none => []
  | PyVal.str s =>
    let t := stripWS (if cl then clean_text s else s)
    if t = [] then [] else [t]
  | PyVal.int n =>
    let t := stripWS (if cl then clean_text (intToChars n) else intToChars n)
    if t = [] then [] else [t]
  | PyVal.list xs => flattenElems cl xs
  | PyVal.dict kvs => flattenVals cl kvs

/-- Flatten the elements of a list value in order. -/
def flattenElems (cl : Bool) : List PyVal → List (List Char)
  | [] => []
  | v :: rest => flatten_to_strings cl v ++ flattenElems cl rest

/-- Flatten the values of a dictionary in insertion order. -/
def flattenVals (cl : Bool) : List (PyKey × PyVal) → List (List Char)
  | [] => []
  | (_, v) :: rest => flatten_to_strings cl v ++ flattenVals cl rest

end

/- ### Shape Normalizer (`extract_simanim`) -/

/-- `re.findall(r"\d+", s)`: the maximal runs of decimal digits, in order. -/
def digitRuns : List Char → List (List Char)
  | [] => []
  | c :: rest =>
    if c.isDigit then
      (c :: rest.takeWhile Char.isDigit) :: digitRuns (rest.dropWhile Char.isDigit)
    else digitRuns rest
  termination_by s => s.length
  decreasing_by
    all_goals simp only [List.length_cons]
    · exact Nat.lt_succ_of_le ((List.dropWhile_suffix Char.isDigit).sublist.length_le)
    · omega

/-- `re.search(r"\d+", s)`: the first maximal digit run, if any. -/
def firstDigitRun (s : List Char) : Option (List Char) := (digitRuns s).head?

/-- Lookup in a dictionary modelled as an association list. -/
def dictFind : List (PyKey × PyVal) → PyKey → Option PyVal
  | [], _ => Option.none
  | (k', v) :: rest, k => if k' = k then some v else dictFind rest k

/-- Python `enumerate(items, start=i)` paired up as `(ordinal, content)`. -/
def enumFrom (i : Int) : List PyVal → List (Int × PyVal)
  | [] => []
  | v :: rest => (i, v) :: enumFrom (i + 1) rest

/-- Insertion step of a stable ascending sort on the extracted number:
entries with an equal or smaller key stay in front, as Python `list.sort`
with `key=lambda x: x[0]` does. -/
def insertByNum (p : Int × PyVal) : List (Int × PyVal) → List (Int × PyVal)
  | [] => [p]
  | q :: rest => if q.1 ≤ p.1 then q :: insertByNum p rest else p :: q :: rest

/-- Stable sort of `(siman, content)` pairs ascending by siman number. -/
def sortByNum (l : List (Int × PyVal)) : List (Int × PyVal) := l.foldr insertByNum []

/-- The per-entry step of the numbered-keys branch: skip `None` values,
use an integer key directly, else extract the first digit run from the
string key (entries without one are dropped). -/
def numberedEntry (kv : PyKey × PyVal) : Option (Int × PyVal) :=
  match kv.2, kv.1 with
  | PyVal.none, _ => Option.none
  | _, PyKey.int n => some (n, kv.2)
  | _, PyKey.str s => (firstDigitRun s).map (fun r => ((parseNatDigits r : Int), kv.2))

/-- `extract_simanim`: normalise raw section data into an ordered list of
`(siman_number, content)` pairs. -/
def extract_simanim : PyVal → List (Int × PyVal)
  | PyVal.none => []
  | PyVal.list xs => enumFrom 1 xs
  | PyVal.dict kvs =>
    match dictFind kvs (PyKey.str []) with
    | some (PyVal.list xs) => enumFrom 1 xs
    | _ => sortByNum (kvs.filterMap numberedEntry)
  | _ => []

/- ### Key Generator (`_generate_commentary_keys`, `_normalise_order_candidates`) -/

/-- The `_add` helper: append a candidate unless it is empty (falsy) or
already present. -/
def addKey (keys : List (List Char)) (c : List Char) : List (List Char) :=
  if c ≠ [] ∧ c ∉ keys then keys ++ [c] else keys

/-- `_generate_commentary_keys`: lookup keys for the fragment at sequential
index `index` of the unit with ordinal `siman`. -/
def generate_commentary_keys (siman : Int) (index : Nat) : List (List Char) :=
  let baseForms := [
    intToChars siman ++ '.' :: natToChars index,
    intToChars siman ++ '.' :: pad2 index,
    intToChars siman ++ '.' :: pad3 index,
    intToChars siman ++ '-' :: natToChars index,
    intToChars siman ++ ':' :: natToChars index]
  let keys := baseForms.foldl addKey []
  [zfill 1 (natToChars index), zfill 2 (natToChars index),
    zfill 3 (natToChars index)].foldl addKey keys

/-- Python `str.replace` for single characters. -/
def replaceChar (a b : Char) (s : List Char) : List Char :=
  s.map (fun c => if c = a then b else c)

/-- `_normalise_order_candidates`: candidate keys that might match an
order attribute. -/
def normalise_order_candidates (order : List Char) (siman : Int) : List (List Char) :=
  if order = [] then [] else
  let ord := stripWS order
  let collapsed := ord.filter (fun c => !isWS c)
  let c1 := addKey (addKey (addKey (addKey [] ord) collapsed)
    (replaceChar '-' '.' collapsed)) (replaceChar ':' '.' collapsed)
  match digitRuns collapsed with
  | [] => c1
  | f :: fs =>
    let first := f
    let lastRun := (f :: fs).getLast (List.cons_ne_nil f fs)
    let c2 := [first, lastRun, first ++ '.' :: lastRun,
      first ++ '-' :: lastRun, first ++ ':' :: lastRun].foldl addKey c1
    let lastInt := parseNatDigits lastRun
    let c3 := [natToChars lastInt, pad2 lastInt, pad3 lastInt,
      first ++ '.' :: natToChars lastInt, first ++ '.' :: pad2 lastInt,
      first ++ '-' :: natToChars lastInt, first ++ ':' :: natToChars lastInt].foldl addKey c2
    if first ≠ intToChars siman then
      [intToChars siman ++ '.' :: natToChars lastInt,
        intToChars siman ++ '.' :: pad2 lastInt,
        intToChars siman ++ '-' :: natToChars lastInt,
        intToChars siman ++ ':' :: natToChars lastInt].foldl addKey c3
    else c3

/- ### Prepared commentary segments (`_prepare_commentary_segments`) -/

/-- A prepared commentary fragment: sequential index, raw and cleaned
text, and its candidate lookup keys. -/
structure Segment where
  index : Nat
  raw : List Char
  clean : List Char
  keys : List (List Char)
deriving DecidableEq

/-- `index_map.setdefault(key, []).append(segment)` on an association list. -/
def mapAppend : List (List Char × List Segment) → List Char → Segment →
    List (List Char × List Segment)
  | [], k, s => [(k, [s])]
  | (k', b) :: rest, k, s =>
    if k' = k then (k', b ++ [s]) :: rest else (k', b) :: mapAppend rest k s

/-- `index_map.get(candidate, [])`. -/
def mapGet : List (List Char × List Segment) → List Char → List Segment
  | [], _ => []
  | (k', b) :: rest, k => if k' = k then b else mapGet rest k

/-- Loop body of `_prepare_commentary_segments`: enumerate the fragments
from 1, skip `None` entries, accumulate the segment list and lookup table. -/
def prepareGo (siman : Int) : List (Option (List Char)) → Nat → List Segment →
    List (List Char × List Segment) → List Segment × List (List Char × List Segment)
  | [], _, segs, imap => (segs, imap)
  | Option.none :: rest, idx, segs, imap => prepareGo siman rest (idx + 1) segs imap
  | some raw :: rest, idx, segs, imap =>
    let seg : Segment := ⟨idx, raw, clean_text raw, generate_commentary_keys siman idx⟩
    prepareGo siman rest (idx + 1) (segs ++ [seg])
      (seg.keys.foldl (fun m k => mapAppend m k seg) imap)

/-- `_prepare_commentary_segments`. -/
def prepare_commentary_segments (siman : Int) (frs : List (Option (List Char))) :
    List Segment × List (List Char × List Segment) :=
  prepareGo siman frs 1 [] []

/- ### Matcher (`_resolve_commentary_segment`) -/

def statusMatched : String := "matched"

def statusFallback : String := "fallback"

def statusMissing : String := "missing"

def statusUnplaced : String := "unplaced"

/-- Python `set.add` on the per-unit used-indices set. -/
def usedAdd (used : List Nat) (i : Nat) : List Nat := if i ∈ used then used else i :: used

/-- Inner loop of the matched phase: the first segment of a bucket whose
index is not yet consumed. -/
def loopBucket : List Segment → List Nat → Option Segment
  | [], _ => Option.none
  | s :: rest, used => if s.index ∈ used then loopBucket rest used else some s

/-- Outer loop of the matched phase: candidate keys in generation order. -/
def loopCands : List (List Char) → List (List Char × List Segment) → List Nat →
    Option (Segment × List Char)
  | [], _, _ => Option.none
  | c :: rest, imap, used =>
    match loopBucket (mapGet imap c) used with
    | some s => some (s, c)
    | Option.none => loopCands rest imap used

/-- Fallback loop: the first unconsumed segment in original order. -/
def loopSegs : List Segment → List Nat → Option Segment
  | [], _ => Option.none
  | s :: rest, used => if s.index ∈ used then loopSegs rest used else some s

/-- `_resolve_commentary_segment`; the updated used set is returned as the
last component. -/
def resolve_commentary_segment (order : Option (List Char)) (siman : Int)
    (segments : List Segment) (imap : List (List Char × List Segment))
    (used : List Nat) : Option Segment × String × Option (List Char) × List Nat :=
  let hit :=
    match order with
    | some o =>
      if o ≠ [] then loopCands (normalise_order_candidates o siman) imap used
      else Option.none
    | Option.none => Option.none
  match hit with
  | some (seg, c) => (some seg, statusMatched, some c, usedAdd used seg.index)
  | Option.none =>
    match loopSegs segments used with
    | some seg => (some seg, statusFallback, seg.keys.head?, usedAdd used seg.index)
    | Option.none => (Option.none, statusMissing, Option.none, used)

/-- The matching precedence in the specification's words: try every
order-token candidate key in generation order against the lookup table,
skipping consumed fragments; on total miss fall back to the next
unconsumed fragment in original sequential order; if none remains
unconsumed, yield no fragment with status `missing`. -/
def resolveSpecPrecedence (order : Option (List Char)) (siman : Int)
    (segments : List Segment) (imap : List (List Char × List Segment))
    (used : List Nat) : Option Segment × String × Option (List Char) × List Nat :=
  let cands :=
    match order with
    | some o => normalise_order_candidates o siman
    | Option.none => []
  match cands.findSome? (fun c =>
      ((mapGet imap c).find? (fun s => !decide (s.index ∈ used))).map (fun s => (s, c))) with
  | some (seg, c) => (some seg, statusMatched, some c, usedAdd used seg.index)
  | Option.none =>
    match segments.find? (fun s => !decide (s.index ∈ used)) with
    | some seg => (some seg, statusFallback, seg.keys.head?, usedAdd used seg.index)
    | Option.none => (Option.none, statusMissing, Option.none, used)

/- ### Output payloads -/

/-- A text payload with its provenance fields. -/
structure TextPayload where
  content : List Char
  work : String
  sec : String
  siman : Int
  segment_index : Nat
  raw : Option (List Char)
deriving DecidableEq

/-- `_build_text_payload`. -/
def build_text_payload (content raw : List Char) (sec : String) (siman : Int)
    (textIndex : Nat) : TextPayload :=
  let rs := stripWS raw
  ⟨content, "Tur", sec, siman, textIndex,
    if rs ≠ [] ∧ rs ≠ content then some rs else Option.none⟩

/-- A commentary payload with provenance and match status. -/
structure CommentaryPayload where
  commentator : List Char
  order : Option (List Char)
  status : String
  work : List Char
  sec : String
  siman : Int
  commentary_key : String
  resolved_order : Option (List Char)
  comment_index : Option Nat
  content : Option (List Char)
  raw : Option (List Char)
deriving DecidableEq

/-- `_build_commentary_payload`. -/
def build_commentary_payload (seg? : Option Segment) (status : String)
    (order : Option (List Char)) (commentator : List Char) (display : List Char)
    (ckey : String) (sec : String) (siman : Int) (cleanFlag : Bool)
    (matchedKey : Option (List Char)) : CommentaryPayload where
  commentator := commentator
  order := order
  status := status
  work := display
  sec := sec
  siman := siman
  commentary_key := ckey
  resolved_order :=
    match matchedKey with
    | some k => if k ≠ [] then some k else Option.none
    | Option.none => Option.none
  comment_index :=
    match seg? with
    | some seg => some seg.index
    | Option.none => Option.none
  content :=
    match seg? with
    | some seg => some (if cleanFlag then seg.clean else stripWS seg.raw)
    | Option.none => Option.none
  raw :=
    match seg? with
    | some seg =>
      if seg.raw ≠ [] ∧ (cleanFlag = false ∨ seg.clean ≠ seg.raw) then some seg.raw
      else Option.none
    | Option.none => Option.none

/-- One output entry: an optional text payload and an optional commentary
payload (the source can put both into a single entry dictionary). -/
structure Entry where
  text : Option TextPayload := Option.none
  commentary : Option CommentaryPayload := Option.none
deriving DecidableEq

/- ### Marker Extractor (`PLACEHOLDER_PATTERN`, `ATTR_PATTERN`) -/

/-- Python regex `\w` (ASCII part): letters, digits, underscore. -/
def isWordChar (c : Char) : Bool := c.isAlpha || c.isDigit || c = '_'

/-- The tag letter `i`, case-insensitively. -/
def isTagI (c : Char) : Bool := c = 'i' || c = 'I'

/-- Try to match `PLACEHOLDER_PATTERN` (`<i\b([^>]*)></i>`, case-insensitive)
at the head of the text; on success return the attribute text and the
remainder after the match. The word boundary after `i` requires the next
character to be a non-word character. -/
def tryPlaceholder : List Char → Option (List Char × List Char)
  | a :: b :: rest =>
    if a = '<' ∧ isTagI b ∧ rest.head?.any (fun d => !isWordChar d) then
      match rest.dropWhile (· ≠ '>') with
      | '>' :: '<' :: '/' :: e :: '>' :: after =>
        if isTagI e then some (rest.takeWhile (· ≠ '>'), after) else Option.none
      | _ => Option.none
    else Option.none
  | _ => Option.none

/-- On a successful placeholder match the remainder is strictly shorter. -/
theorem tryPlaceholder_length {s attrs after : List Char}
    (h : tryPlaceholder s = some (attrs, after)) : after.length < s.length := by
  match s with
  | [] => simp [tryPlaceholder] at h
  | [a] => simp [tryPlaceholder] at h
  | a :: b :: rest =>
    simp only [tryPlaceholder] at h
    split at h
    · split at h
      next e after' heq =>
        split at h
        · simp only [Option.some.injEq, Prod.mk.injEq] at h
          have hafter : after = after' := h.2.symm
          subst hafter
          have h2 : (rest.dropWhile (· ≠ '>')).length ≤ rest.length :=
            (List.dropWhile_suffix _).sublist.length_le
          rw [heq] at h2
          simp only [List.length_cons] at h2
          simp only [List.length_cons]
          omega
        · simp at h
      next => simp at h
    · simp at h

/-- Leftmost match of the placeholder pattern (`finditer` step): the text
before the match, the attribute text, and the text after the match. -/
def findPlaceholder : List Char → Option (List Char × List Char × List Char)
  | [] => Option.none
  | c :: rest =>
    match tryPlaceholder (c :: rest) with
    | some (attrs, after) => some ([], attrs, after)
    | Option.none =>
      match findPlaceholder rest with
      | some (before, attrs, after) => some (c :: before, attrs, after)
      | Option.none => Option.none

/-- After the leftmost placeholder match the remainder is strictly shorter. -/
theorem findPlaceholder_length {s before attrs after : List Char}
    (h : findPlaceholder s = some (before, attrs, after)) : after.length < s.length := by
  induction s generalizing before with
  | nil => simp [findPlaceholder] at h
  | cons c rest ih =>
    simp only [findPlaceholder] at h
    split at h
    next attrs' after' heq =>
      simp only [Option.some.injEq, Prod.mk.injEq] at h
      have hlen := tryPlaceholder_length heq
      rw [h.2.2] at hlen
      omega
    next =>
      split at h
      next before' attrs' after' heq =>
        simp only [Option.some.injEq, Prod.mk.injEq] at h
        have := @ih before' (by rw [heq, h.2.1, h.2.2])
        simp only [List.length_cons]
        omega
      next => simp at h

/-- Leading character class of `ATTR_PATTERN` (`[A-Za-z_:]`). -/
def isAttrStart (c : Char) : Bool := c.isAlpha || c = '_' || c = ':'

/-- Continuation character class of `ATTR_PATTERN` (`[-A-Za-z0-9_:.]`). -/
def isAttrCont (c : Char) : Bool :=
  c = '-' || c.isAlpha || c.isDigit || c = '_' || c = ':' || c = '.'

/-- Try to match `ATTR_PATTERN` (`([A-Za-z_:][-A-Za-z0-9_:.]*)\s*=\s*"([^"]*)"`)
at the head of the attribute text; on success return the name-value pair
and the remainder after the match. -/
def tryAttr : List Char → Option ((List Char × List Char) × List Char)
  | [] => Option.none
  | c :: rest =>
    if isAttrStart c then
      match (rest.dropWhile isAttrCont).dropWhile isWS with
      | '=' :: r3 =>
        match r3.dropWhile isWS with
        | '"' :: r4 =>
          match r4.dropWhile (· ≠ '"') with
          | '"' :: r5 => some ((c :: rest.takeWhile isAttrCont, r4.takeWhile (· ≠ '"')), r5)
          | _ => Option.none
        | _ => Option.none
      | _ => Option.none
    else Option.none

/-- On a successful attribute match the remainder is strictly shorter. -/
theorem tryAttr_length {s after : List Char} {kv : List Char × List Char}
    (h : tryAttr s = some (kv, after)) : after.length < s.length := by
  match s with
  | [] => simp [tryAttr] at h
  | c :: rest =>
    simp only [tryAttr] at h
    split at h
    · split at h
      next r3 heq3 =>
        split at h
        next r4 heq4 =>
          split at h
          next r5 heq5 =>
            simp only [Option.some.injEq, Prod.mk.injEq] at h
            have hafter : after = r5 := h.2.symm
            subst hafter
            have h3 : (((rest.dropWhile isAttrCont).dropWhile isWS)).length ≤ rest.length :=
              le_trans (List.dropWhile_suffix isWS).sublist.length_le
                (List.dropWhile_suffix isAttrCont).sublist.length_le
            rw [heq3] at h3
            have h4 : (r3.dropWhile isWS).length ≤ r3.length :=
              (List.dropWhile_suffix isWS).sublist.length_le
            rw [heq4] at h4
            have h5 : (r4.dropWhile (· ≠ '"')).length ≤ r4.length :=
              (List.dropWhile_suffix _).sublist.length_le
            rw [heq5] at h5
            simp only [List.length_cons] at h3 h4 h5 ⊢
            omega
          next => simp at h
        next => simp at h
      next => simp at h
    · simp at h

/-- All attribute matches in scan order (`ATTR_PATTERN.finditer`). -/
def attrMatches : List Char → List (List Char × List Char)
  | [] => []
  | c :: rest =>
    match h : tryAttr (c :: rest) with
    | some (kv, after) => kv :: attrMatches after
    | Option.none => attrMatches rest
  termination_by s => s.length
  decreasing_by
    · exact tryAttr_length h
    · simp only [List.length_cons]
      omega

/-- First-occurrence lookup of an attribute name. -/
def attrGet : List (List Char × List Char) → List Char → Option (List Char)
  | [], _ => Option.none
  | (k, v) :: rest, n => if k = n then some v else attrGet rest n

/-- `_parse_tag_attributes`: the first occurrence of each attribute name wins. -/
def parse_tag_attributes (s : List Char) : List (List Char × List Char) :=
  (attrMatches s).foldl
    (fun acc kv => if (attrGet acc kv.1).isSome then acc else acc ++ [kv]) []

/- ### Alignment Engine (`_consume_main_segment`, `_build_embedded_entries`) -/

/-- The attribute carrying the commentator identity. -/
def attrCommentator : List Char := ("data-commentator").toList

/-- The attribute carrying the order token. -/
def attrOrder : List Char := ("data-order").toList

/-- `_consume_main_segment`: walk one flattened primary segment, flushing
buffered text before each placeholder and resolving one commentary entry
per placeholder; returns the new entries, text index and used set. -/
def consume_main_segment (sec : String) (siman : Int) (display : List Char)
    (ckey : String) (segments : List Segment)
    (imap : List (List Char × List Segment)) (cleanFlag : Bool) :
    List Char → Nat → List Nat → List Entry × Nat × List Nat
  | raw, textIndex, used =>
    if hp : findPlaceholder raw = Option.none then
      if raw ≠ [] then
        let processed := if cleanFlag then clean_text raw else stripWS raw
        if processed ≠ [] then
          ([⟨some (build_text_payload processed raw sec siman (textIndex + 1)),
            Option.none⟩], textIndex + 1, used)
        else ([], textIndex, used)
      else ([], textIndex, used)
    else
      let m := (findPlaceholder raw).get (Option.ne_none_iff_isSome.mp hp)
      let before := m.1
      let attrText := m.2.1
      let after := m.2.2
      let tp :=
        if before ≠ [] then
          let processed := if cleanFlag then clean_text before else stripWS before
          if processed ≠ [] then
            some (build_text_payload processed before sec siman (textIndex + 1))
          else Option.none
        else Option.none
      let textIndex' := if tp.isSome then textIndex + 1 else textIndex
      let attrs := parse_tag_attributes attrText
      let commentator :=
        match attrGet attrs attrCommentator with
        | some v => if v ≠ [] then v else display
        | Option.none => display
      let order := attrGet attrs attrOrder
      let r := resolve_commentary_segment order siman segments imap used
      let cp := build_commentary_payload r.1 r.2.1 order commentator display
        ckey sec siman cleanFlag r.2.2.1
      let rest := consume_main_segment sec siman display ckey segments imap cleanFlag
        after textIndex' r.2.2.2
      (⟨tp, some cp⟩ :: rest.1, rest.2.1, rest.2.2)
  termination_by raw _ _ => raw.length
  decreasing_by
    exact findPlaceholder_length ((Option.some_get (Option.ne_none_iff_isSome.mp hp)).symm)

/-- The unplaced-fragment entry appended after the main walk. -/
def unplacedEntry (display : List Char) (ckey : String) (sec : String)
    (siman : Int) (cleanFlag : Bool) (seg : Segment) : Entry :=
  ⟨Option.none, some (build_commentary_payload (some seg) statusUnplaced
    seg.keys.head? display display ckey sec siman cleanFlag seg.keys.head?)⟩

/-- The loop body of `_build_embedded_entries` over the flattened primary
segments: skip empty segments, otherwise walk the segment and extend the
accumulated entries, text index and used set. -/
def buildStep (sec : String) (siman : Int) (display : List Char) (ckey : String)
    (segments : List Segment) (imap : List (List Char × List Segment))
    (cleanFlag : Bool) (acc : List Entry × Nat × List Nat)
    (rawSeg : List Char) : List Entry × Nat × List Nat :=
  if rawSeg = [] then acc
  else
    let r := consume_main_segment sec siman display ckey segments imap cleanFlag
      rawSeg acc.2.1 acc.2.2
    (acc.1 ++ r.1, r.2.1, r.2.2)

/-- `_build_embedded_entries`: the per-unit alignment engine. -/
def build_embedded_entries (mainContent commContent : PyVal) (sec : String)
    (siman : Int) (display : List Char) (ckey : String) (cleanFlag : Bool) :
    List Entry :=
  let mainSegments := flatten_to_strings false mainContent
  let commentarySegments := flatten_to_strings false commContent
  let pr := prepare_commentary_segments siman (commentarySegments.map some)
  let walked := mainSegments.foldl (buildStep sec siman display ckey pr.1 pr.2 cleanFlag)
    ([], 0, [])
  let unused := pr.1.filter (fun seg => !decide (seg.index ∈ walked.2.2))
  walked.1 ++ unused.map (unplacedEntry display ckey sec siman cleanFlag)

/- ### The Text Cleaner is idempotent -/

/-- Absence of the tag pattern: every `<` is immediately followed by `>`
or has no `>` anywhere after it, so `removeTags` finds nothing to delete. -/
def noTag : List Char → Prop
  | [] => True
  | c :: rest => (c = '<' → rest.head? = some '>' ∨ '>' ∉ rest) ∧ noTag rest

theorem noTag_cons_iff {c : Char} {rest : List Char} :
    noTag (c :: rest) ↔ (c = '<' → rest.head? = some '>' ∨ '>' ∉ rest) ∧ noTag rest :=
  Iff.rfl

theorem noTag_dropWhile {p : Char → Bool} {l : List Char} (h : noTag l) :
    noTag (l.dropWhile p) := by
  induction l with
  | nil => simpa using h
  | cons c rest ih =>
    rw [List.dropWhile_cons]
    split
    · exact ih h.2
    · exact h

theorem noTag_append_left {v w : List Char} (h : noTag (v ++ w)) : noTag v := by
  induction v with
  | nil => trivial
  | cons c rest ih =>
    rw [List.cons_append] at h
    refine ⟨?_, ih h.2⟩
    intro hc
    rcases h.1 hc with h1 | h1
    · cases rest with
      | nil => right; simp
      | cons d rest' =>
        left
        simpa using h1
    · right
      intro hmem
      exact h1 (List.mem_append_left w hmem)

theorem mem_removeTags {x : Char} {s : List Char} (h : x ∈ removeTags s) : x ∈ s := by
  induction s using removeTags.induct with
  | case1 => simpa [removeTags] using h
  | case2 rest hcond ih =>
    rw [removeTags, if_pos rfl, dif_pos hcond] at h
    rcases List.mem_cons.mp h with h1 | h1
    · exact h1 ▸ List.mem_cons_self _ _
    · exact List.mem_cons_of_mem _ (ih h1)
  | case3 rest hcond ih =>
    rw [removeTags, if_pos rfl, dif_neg hcond] at h
    have hx := ih h
    have hsub : x ∈ rest := by
      obtain ⟨t, ht⟩ := List.dropWhile_suffix (l := rest) (fun c => decide (c ≠ '>'))
      rw [← ht]
      exact List.mem_append_right t (List.mem_of_mem_tail hx)
    exact List.mem_cons_of_mem _ hsub
  | case4 c rest hc ih =>
    rw [removeTags, if_neg hc] at h
    rcases List.mem_cons.mp h with h1 | h1
    · exact h1 ▸ List.mem_cons_self _ _
    · exact List.mem_cons_of_mem _ (ih h1)

theorem noTag_removeTags (s : List Char) : noTag (removeTags s) := by
  induction s using removeTags.induct with
  | case1 => rw [removeTags]; trivial
  | case2 rest hcond ih =>
    rw [removeTags, if_pos rfl, dif_pos hcond]
    refine ⟨fun _ => ?_, ih⟩
    rcases hcond with htake | hdrop
    · cases rest with
      | nil => right; rw [removeTags]; simp
      | cons d r2 =>
        have hd : d = '>' := by
          by_contra hne
          rw [List.takeWhile_cons_of_pos (by simpa using hne)] at htake
          exact List.cons_ne_nil _ _ htake
        subst hd
        left
        rw [removeTags, if_neg (by decide)]
        rfl
    · right
      intro hmem
      have : ('>' : Char) ∈ rest := mem_removeTags hmem
      have hall := List.dropWhile_eq_nil_iff.mp hdrop _ this
      simp at hall
  | case3 rest hcond ih =>
    rw [removeTags, if_pos rfl, dif_neg hcond]
    exact ih
  | case4 c rest hc ih =>
    rw [removeTags, if_neg hc]
    exact ⟨fun h1 => absurd h1 hc, ih⟩

theorem removeTags_eq_of_noTag {s : List Char} (h : noTag s) : removeTags s = s := by
  induction s with
  | nil => rw [removeTags]
  | cons c rest ih =>
    by_cases hc : c = '<'
    · subst hc
      rcases h.1 rfl with h1 | h1
      · cases rest with
        | nil => rw [removeTags, if_pos rfl, dif_pos (Or.inl (by simp))]; simp [removeTags]
        | cons d r2 =>
          have hd : d = '>' := by simpa using h1
          subst hd
          rw [removeTags, if_pos rfl,
            dif_pos (Or.inl (List.takeWhile_cons_of_neg (by decide)))]
          rw [ih h.2]
      · have hdrop : rest.dropWhile (· ≠ '>') = [] := by
          rw [List.dropWhile_eq_nil_iff]
          intro x hx
          simp only [decide_eq_true_eq]
          intro hx'
          exact h1 (hx' ▸ hx)
        rw [removeTags, if_pos rfl, dif_pos (Or.inr hdrop)]
        rw [ih h.2]
    · rw [removeTags, if_neg hc]
      rw [ih h.2]

theorem head?_dropWhile_false {p : Char → Bool} {l : List Char} {a : Char}
    (h : (l.dropWhile p).head? = some a) : p a = false := by
  induction l with
  | nil => simp [List.dropWhile] at h
  | cons c rest ih =>
    rw [List.dropWhile_cons] at h
    split at h
    · exact ih h
    · next hc =>
      have ha : a = c := by simpa using h.symm
      subst ha
      exact Bool.not_eq_true _ ▸ hc

theorem head?_collapseWS (s : List Char) :
    (collapseWS s).head? = s.head?.map (fun c => if isWS c then ' ' else c) := by
  cases s with
  | nil => rw [collapseWS]; rfl
  | cons c rest =>
    rw [collapseWS]
    by_cases hc : isWS c
    · rw [if_pos hc]
      simp [hc]
    · rw [if_neg hc]
      simp [hc]

theorem mem_collapseWS {x : Char} {s : List Char} (h : x ∈ collapseWS s) :
    x ∈ s ∨ x = ' ' := by
  induction s using collapseWS.induct with
  | case1 => rw [collapseWS] at h; simp at h
  | case2 c rest hc ih =>
    rw [collapseWS, if_pos hc] at h
    rcases List.mem_cons.mp h with h1 | h1
    · right; exact h1
    · rcases ih h1 with h2 | h2
      · left
        obtain ⟨t, ht⟩ := List.dropWhile_suffix (l := rest) isWS
        exact List.mem_cons_of_mem _ (ht ▸ List.mem_append_right t h2)
      · right; exact h2
  | case3 c rest hc ih =>
    rw [collapseWS, if_neg hc] at h
    rcases List.mem_cons.mp h with h1 | h1
    · left; exact h1 ▸ List.mem_cons_self _ _
    · rcases ih h1 with h2 | h2
      · left; exact List.mem_cons_of_mem _ h2
      · right; exact h2

theorem noTag_collapseWS {s : List Char} (h : noTag s) : noTag (collapseWS s) := by
  induction s using collapseWS.induct with
  | case1 => rw [collapseWS]; trivial
  | case2 c rest hc ih =>
    rw [collapseWS, if_pos hc]
    refine ⟨fun h1 => absurd h1 (by decide), ih (noTag_dropWhile h.2)⟩
  | case3 c rest hc ih =>
    rw [collapseWS, if_neg hc]
    refine ⟨fun h1 => ?_, ih h.2⟩
    rcases h.1 h1 with h2 | h2
    · left
      rw [head?_collapseWS, h2]
      rfl
    · right
      intro hmem
      rcases mem_collapseWS hmem with h3 | h3
      · exact h2 h3
      · exact absurd h3 (by decide)

/-- Whitespace is normalised: every whitespace character is a space and is
not followed by another whitespace character. -/
def wsCollapsed : List Char → Prop
  | [] => True
  | c :: rest =>
    (isWS c = true → c = ' ' ∧ ∀ d, rest.head? = some d → isWS d = false) ∧ wsCollapsed rest

theorem wsCollapsed_dropWhile {p : Char → Bool} {l : List Char} (h : wsCollapsed l) :
    wsCollapsed (l.dropWhile p) := by
  induction l with
  | nil => simpa using h
  | cons c rest ih =>
    rw [List.dropWhile_cons]
    split
    · exact ih h.2
    · exact h

theorem wsCollapsed_append_left {v w : List Char} (h : wsCollapsed (v ++ w)) :
    wsCollapsed v := by
  induction v with
  | nil => trivial
  | cons c rest ih =>
    rw [List.cons_append] at h
    refine ⟨?_, ih h.2⟩
    intro hc
    obtain ⟨h1, h2⟩ := h.1 hc
    refine ⟨h1, ?_⟩
    intro d hd
    apply h2
    cases rest with
    | nil => exact absurd hd (by simp)
    | cons e r => simpa using hd

theorem wsCollapsed_collapseWS (s : List Char) : wsCollapsed (collapseWS s) := by
  induction s using collapseWS.induct with
  | case1 => rw [collapseWS]; trivial
  | case2 c rest hc ih =>
    rw [collapseWS, if_pos hc]
    refine ⟨fun _ => ⟨rfl, ?_⟩, ih⟩
    intro d hd
    rw [head?_collapseWS] at hd
    cases hh : (rest.dropWhile isWS).head? with
    | none => rw [hh] at hd; simp at hd
    | some e =>
      rw [hh] at hd
      have he : isWS e = false := head?_dropWhile_false hh
      have hed : e = d := by simpa [he] using hd
      rw [← hed]
      exact he
  | case3 c rest hc ih =>
    rw [collapseWS, if_neg hc]
    exact ⟨fun h1 => absurd h1 hc, ih⟩

theorem collapseWS_eq_of_wsCollapsed {s : List Char} (h : wsCollapsed s) :
    collapseWS s = s := by
  induction s with
  | nil => rw [collapseWS]
  | cons c rest ih =>
    by_cases hc : isWS c
    · obtain ⟨h1, h2⟩ := h.1 hc
      subst h1
      rw [collapseWS, if_pos hc]
      cases rest with
      | nil => rw [List.dropWhile_nil, collapseWS]
      | cons d r =>
        have hd : isWS d = false := h2 d rfl
        rw [List.dropWhile_cons, if_neg (by simp [hd])]
        rw [ih h.2]
    · rw [collapseWS, if_neg hc, ih h.2]

/-- No leading or trailing whitespace. -/
def wsStripped (s : List Char) : Prop :=
  (∀ c, s.head? = some c → isWS c = false) ∧ ∀ c, s.getLast? = some c → isWS c = false

/-- The trim result as an explicit prefix of the left-trimmed list. -/
theorem stripWS_decomp (s : List Char) :
    ∃ w, s.dropWhile isWS = stripWS s ++ w := by
  obtain ⟨t, ht⟩ := List.dropWhile_suffix (l := (s.dropWhile isWS).reverse) isWS
  refine ⟨t.reverse, ?_⟩
  rw [stripWS]
  calc s.dropWhile isWS = (s.dropWhile isWS).reverse.reverse := by rw [List.reverse_reverse]
    _ = (t ++ ((s.dropWhile isWS).reverse.dropWhile isWS)).reverse := by rw [ht]
    _ = ((s.dropWhile isWS).reverse.dropWhile isWS).reverse ++ t.reverse := by
        rw [List.reverse_append]

theorem noTag_stripWS {s : List Char} (h : noTag s) : noTag (stripWS s) := by
  obtain ⟨w, hw⟩ := stripWS_decomp s
  have h1 : noTag (s.dropWhile isWS) := noTag_dropWhile h
  rw [hw] at h1
  exact noTag_append_left h1

theorem wsCollapsed_stripWS {s : List Char} (h : wsCollapsed s) :
    wsCollapsed (stripWS s) := by
  obtain ⟨w, hw⟩ := stripWS_decomp s
  have h1 : wsCollapsed (s.dropWhile isWS) := wsCollapsed_dropWhile h
  rw [hw] at h1
  exact wsCollapsed_append_left h1

theorem wsStripped_stripWS (s : List Char) : wsStripped (stripWS s) := by
  constructor
  · intro c hc
    rw [stripWS, List.head?_reverse] at hc
    obtain ⟨t, ht⟩ := List.dropWhile_suffix (l := (s.dropWhile isWS).reverse) isWS
    have hlast : (s.dropWhile isWS).reverse.getLast? = some c := by
      rw [← ht, List.getLast?_append, hc]
      rfl
    rw [List.getLast?_reverse] at hlast
    exact head?_dropWhile_false hlast
  · intro c hc
    rw [stripWS, List.getLast?_reverse] at hc
    exact head?_dropWhile_false hc

theorem stripWS_eq_of_wsStripped {s : List Char} (h : wsStripped s) : stripWS s = s := by
  have h1 : s.dropWhile isWS = s := by
    cases s with
    | nil => rfl
    | cons c rest =>
      rw [List.dropWhile_cons, if_neg (by simp [h.1 c rfl])]
  have h2 : s.reverse.dropWhile isWS = s.reverse := by
    cases hrev : s.reverse with
    | nil => rfl
    | cons d r =>
      have hd : s.getLast? = some d := by
        rw [← List.head?_reverse, hrev]
        rfl
      rw [List.dropWhile_cons, if_neg (by simp [h.2 d hd])]
  rw [stripWS, h1, h2, List.reverse_reverse]

theorem clean_text_eq_self {s : List Char} (h1 : noTag s) (h2 : wsCollapsed s)
    (h3 : wsStripped s) : clean_text s = s := by
  rw [clean_text, removeTags_eq_of_noTag h1, collapseWS_eq_of_wsCollapsed h2,
    stripWS_eq_of_wsStripped h3]

theorem noTag_clean_text (s : List Char) : noTag (clean_text s) :=
  noTag_stripWS (noTag_collapseWS (noTag_removeTags s))

theorem wsCollapsed_clean_text (s : List Char) : wsCollapsed (clean_text s) :=
  wsCollapsed_stripWS (wsCollapsed_collapseWS (removeTags s))

theorem wsStripped_clean_text (s : List Char) : wsStripped (clean_text s) :=
  wsStripped_stripWS (collapseWS (removeTags s))

/-- C7: the Text Cleaner is idempotent — cleaning an already-clean string
returns it unchanged, so `clean_text (clean_text s) = clean_text s` for
every string `s`. -/
theorem c7_clean_text_idempotent : ∀ s : List Char,
    clean_text (clean_text s) = clean_text s :=
  fun s => clean_text_eq_self (noTag_clean_text s) (wsCollapsed_clean_text s)
    (wsStripped_clean_text s)

/- ### Claims on the cleaner guard and the Shape Normalizer -/

/-- C9: `clean_text` is a no-op outside strings — every non-string value
(`None`, numbers, lists, dictionaries) is returned unchanged rather than
raised on or stringified. -/
theorem c9_clean_text_non_string :
    ∀ v : PyVal, (∀ s, v ≠ PyVal.str s) → clean_text_val v = v := by
  intro v hv
  cases v with
  | str s => exact absurd rfl (hv s)
  | none => rfl
  | int n => rfl
  | list xs => rfl
  | dict kvs => rfl

/-- Witness for C9 at the integer 5, the empty list and `None`. -/
theorem c9_clean_text_non_string_witness :
    clean_text_val (PyVal.int 5) = PyVal.int 5 ∧
    clean_text_val (PyVal.list []) = PyVal.list [] ∧
    clean_text_val PyVal.none = PyVal.none :=
  ⟨c9_clean_text_non_string (PyVal.int 5) (fun _ h => PyVal.noConfusion h),
   c9_clean_text_non_string (PyVal.list []) (fun _ h => PyVal.noConfusion h),
   c9_clean_text_non_string PyVal.none (fun _ h => PyVal.noConfusion h)⟩

theorem mem_insertByNum {x p : Int × PyVal} {l : List (Int × PyVal)}
    (h : x ∈ insertByNum p l) : x = p ∨ x ∈ l := by
  induction l with
  | nil => simpa [insertByNum] using h
  | cons q rest ih =>
    rw [insertByNum] at h
    split at h
    · rcases List.mem_cons.mp h with h1 | h1
      · right; exact h1 ▸ List.mem_cons_self _ _
      · rcases ih h1 with h2 | h2
        · left; exact h2
        · right; exact List.mem_cons_of_mem _ h2
    · rcases List.mem_cons.mp h with h1 | h1
      · left; exact h1
      · right; exact h1

theorem mem_sortByNum {x : Int × PyVal} {l : List (Int × PyVal)}
    (h : x ∈ sortByNum l) : x ∈ l := by
  induction l with
  | nil => simpa [sortByNum] using h
  | cons p rest ih =>
    rw [sortByNum, List.foldr_cons] at h
    rcases mem_insertByNum h with h1 | h1
    · exact h1 ▸ List.mem_cons_self _ _
    · exact List.mem_cons_of_mem _ (ih (by rw [sortByNum]; exact h1))

theorem insertByNum_sorted {p : Int × PyVal} {l : List (Int × PyVal)}
    (h : List.Pairwise (fun a b : Int × PyVal => a.1 ≤ b.1) l) :
    List.Pairwise (fun a b : Int × PyVal => a.1 ≤ b.1) (insertByNum p l) := by
  induction l with
  | nil => simp [insertByNum]
  | cons q rest ih =>
    rw [insertByNum]
    split
    · next hq =>
      rw [List.pairwise_cons]
      refine ⟨?_, ih (List.pairwise_cons.mp h).2⟩
      intro x hx
      rcases mem_insertByNum hx with h1 | h1
      · exact h1 ▸ hq
      · exact (List.pairwise_cons.mp h).1 x h1
    · next hq =>
      rw [List.pairwise_cons]
      refine ⟨?_, h⟩
      intro x hx
      rcases List.mem_cons.mp hx with h1 | h1
      · subst h1; omega
      · have := (List.pairwise_cons.mp h).1 x h1
        omega

theorem sortByNum_sorted (l : List (Int × PyVal)) :
    List.Pairwise (fun a b : Int × PyVal => a.1 ≤ b.1) (sortByNum l) := by
  induction l with
  | nil => simp [sortByNum]
  | cons p rest ih =>
    rw [sortByNum, List.foldr_cons]
    exact insertByNum_sorted ih

theorem mem_enumFrom {p : Int × PyVal} {i : Int} {xs : List PyVal}
    (h : p ∈ enumFrom i xs) : i ≤ p.1 := by
  induction xs generalizing i with
  | nil => simp [enumFrom] at h
  | cons v rest ih =>
    rw [enumFrom] at h
    rcases List.mem_cons.mp h with h1 | h1
    · rw [h1]
    · have := ih h1
      omega

theorem enumFrom_pairwise (i : Int) (xs : List PyVal) :
    List.Pairwise (fun a b : Int × PyVal => a.1 ≤ b.1) (enumFrom i xs) := by
  induction xs generalizing i with
  | nil => rw [enumFrom]; exact List.Pairwise.nil
  | cons v rest ih =>
    rw [enumFrom, List.pairwise_cons]
    refine ⟨?_, ih (i + 1)⟩
    intro x hx
    have := mem_enumFrom hx
    omega

theorem enumFrom_map_fst (i : Int) (xs : List PyVal) :
    (enumFrom i xs).map Prod.fst = (List.range xs.length).map (fun k : Nat => i + (k : Int)) := by
  induction xs generalizing i with
  | nil => rfl
  | cons v rest ih =>
    rw [enumFrom, List.map_cons, List.length_cons, List.range_succ_eq_map,
      List.map_cons, List.map_map, ih]
    refine congrArg₂ List.cons (by simp) ?_
    refine List.map_congr_left ?_
    intro k _
    simp only [Function.comp_apply, Nat.succ_eq_add_one]
    push_cast
    ring

/-- Whether a dictionary is captured by the empty-string-key shortcut. -/
def hasEmptyListKey (kvs : List (PyKey × PyVal)) : Bool :=
  match dictFind kvs (PyKey.str []) with
  | some (PyVal.list _) => true
  | _ => false

theorem extract_simanim_numbered {kvs : List (PyKey × PyVal)}
    (h : hasEmptyListKey kvs = false) :
    extract_simanim (PyVal.dict kvs) = sortByNum (kvs.filterMap numberedEntry) := by
  rw [extract_simanim]
  rw [hasEmptyListKey] at h
  cases hd : dictFind kvs (PyKey.str []) with
  | none => rfl
  | some v =>
    rw [hd] at h
    cases v with
    | list xs => simp at h
    | none => rfl
    | str s => rfl
    | int n => rfl
    | dict kvs2 => rfl

/-- The input refuting C4: numbered keys "2" and "5". -/
def c4Input : List (PyKey × PyVal) :=
  [(PyKey.str ['2'], PyVal.str ['a']), (PyKey.str ['5'], PyVal.str ['b'])]

unseal digitRuns in
/-- C4 counterexample: for the dictionary with keys "2" and "5" the Shape
Normalizer returns ordinals `[2, 5]` — sorted, but not the gap-free
sequence starting at 1 that the claim asserts. -/
theorem c4_counterexample :
    (extract_simanim (PyVal.dict c4Input)).map Prod.fst = [2, 5] ∧
    (extract_simanim (PyVal.dict c4Input)).map Prod.fst ≠
      (List.range (extract_simanim (PyVal.dict c4Input)).length).map
        (fun k : Nat => (k : Int) + 1) := by
  constructor
  · rfl
  · intro hcontra
    have h1 : (extract_simanim (PyVal.dict c4Input)).map Prod.fst = [2, 5] := rfl
    have h2 : (List.range (extract_simanim (PyVal.dict c4Input)).length).map
        (fun k : Nat => (k : Int) + 1) = [1, 2] := rfl
    rw [h1, h2] at hcontra
    simp at hcontra

/-- C4 (amended): ordinals are always nondecreasing; for list inputs and
for dictionaries whose empty-string key holds a list they are exactly
`1..N` with no gaps or duplicates; the numbered-keys dictionary branch
sorts ascending by the extracted integer but may produce gaps or
duplicate ordinals. -/
theorem c4_ordinals_amended :
    (∀ v : PyVal, List.Pairwise (fun a b : Int × PyVal => a.1 ≤ b.1) (extract_simanim v)) ∧
    (∀ xs : List PyVal, (extract_simanim (PyVal.list xs)).map Prod.fst =
      (List.range xs.length).map (fun k : Nat => 1 + (k : Int))) ∧
    (∀ kvs xs, dictFind kvs (PyKey.str []) = some (PyVal.list xs) →
      (extract_simanim (PyVal.dict kvs)).map Prod.fst =
      (List.range xs.length).map (fun k : Nat => 1 + (k : Int))) := by
  refine ⟨?_, ?_, ?_⟩
  · intro v
    cases v with
    | none => exact List.Pairwise.nil
    | str s => exact List.Pairwise.nil
    | int n => exact List.Pairwise.nil
    | list xs => exact enumFrom_pairwise 1 xs
    | dict kvs =>
      rw [extract_simanim]
      cases hd : dictFind kvs (PyKey.str []) with
      | none => exact sortByNum_sorted _
      | some v =>
        cases v with
        | list xs => exact enumFrom_pairwise 1 xs
        | none => exact sortByNum_sorted _
        | str s => exact sortByNum_sorted _
        | int n => exact sortByNum_sorted _
        | dict kvs2 => exact sortByNum_sorted _
  · intro xs
    rw [extract_simanim]
    exact enumFrom_map_fst 1 xs
  · intro kvs xs h
    rw [extract_simanim, h]
    exact enumFrom_map_fst 1 xs

/-- Witness for C4 (amended) at a concrete dictionary with an
empty-string key. -/
theorem c4_ordinals_amended_witness :
    dictFind [(PyKey.str [], PyVal.list [PyVal.none, PyVal.none])] (PyKey.str []) =
      some (PyVal.list [PyVal.none, PyVal.none]) ∧
    (extract_simanim (PyVal.dict [(PyKey.str [], PyVal.list [PyVal.none, PyVal.none])])).map
      Prod.fst = (List.range 2).map (fun k : Nat => 1 + (k : Int)) :=
  ⟨rfl, c4_ordinals_amended.2.2 _ [PyVal.none, PyVal.none] rfl⟩

/-- C6: a dictionary whose empty-string key holds a list uses that list,
with ordinals 1..N by position; this branch takes priority over any other
keys present in the same dictionary. -/
theorem c6_empty_string_key_priority :
    ∀ kvs xs, dictFind kvs (PyKey.str []) = some (PyVal.list xs) →
      extract_simanim (PyVal.dict kvs) = enumFrom 1 xs := by
  intro kvs xs h
  rw [extract_simanim, h]

/-- The specification's example input `{"": [["a"], ["b","c"]]}`, with an
extra numbered key to exercise the priority. -/
def c6Input : List (PyKey × PyVal) :=
  [(PyKey.str [], PyVal.list [PyVal.list [PyVal.str ['a']],
      PyVal.list [PyVal.str ['b'], PyVal.str ['c']]]),
   (PyKey.str ['1'], PyVal.str ['z'])]

/-- Witness for C6: the spec's example evaluates to
`[(1, ["a"]), (2, ["b","c"])]`, ignoring the numbered key. -/
theorem c6_empty_string_key_priority_witness :
    extract_simanim (PyVal.dict c6Input) =
      [(1, PyVal.list [PyVal.str ['a']]),
       (2, PyVal.list [PyVal.str ['b'], PyVal.str ['c']])] :=
  (c6_empty_string_key_priority c6Input _ rfl).trans rfl

/-- A surviving numbered entry never carries `None` content. -/
theorem numberedEntry_ne_none {kv : PyKey × PyVal} {p : Int × PyVal}
    (h : numberedEntry kv = some p) : p.2 ≠ PyVal.none := by
  rw [numberedEntry] at h
  split at h
  · exact absurd h (by simp)
  · next v k n heq hne =>
    simp only [Option.some.injEq] at h
    rw [← h]
    exact hne
  · next v k s heq hne =>
    cases hfd : firstDigitRun s with
    | none => rw [hfd] at h; simp at h
    | some r =>
      rw [hfd] at h
      simp only [Option.map_some', Option.some.injEq] at h
      rw [← h]
      exact hne

/-- C10: in the numbered-keys branch, entries whose value is `None` are
dropped before ordinal extraction, so the normalized list never pairs an
ordinal with `None` content. -/
theorem c10_none_values_dropped :
    ∀ kvs, hasEmptyListKey kvs = false →
      ∀ p ∈ extract_simanim (PyVal.dict kvs), p.2 ≠ PyVal.none := by
  intro kvs h p hp
  rw [extract_simanim_numbered h] at hp
  have hp2 := mem_sortByNum hp
  obtain ⟨kv, _, hkv⟩ := List.mem_filterMap.mp hp2
  exact numberedEntry_ne_none hkv

/-- The input exercising C10: key "1" carries `None` and is dropped. -/
def c10Input : List (PyKey × PyVal) :=
  [(PyKey.str ['1'], PyVal.none), (PyKey.str ['2'], PyVal.str ['x'])]

unseal digitRuns in
/-- Witness for C10: on the concrete dictionary the only surviving pair is
`(2, "x")`, whose content is not `None`. -/
theorem c10_none_values_dropped_witness :
    hasEmptyListKey c10Input = false ∧
    ((2 : Int), PyVal.str ['x']) ∈ extract_simanim (PyVal.dict c10Input) ∧
    (PyVal.str ['x'] : PyVal) ≠ PyVal.none :=
  ⟨rfl,
   (show extract_simanim (PyVal.dict c10Input) = [((2 : Int), PyVal.str ['x'])] from rfl) ▸
     List.mem_singleton_self _,
   c10_none_values_dropped c10Input rfl ((2 : Int), PyVal.str ['x'])
     ((show extract_simanim (PyVal.dict c10Input) = [((2 : Int), PyVal.str ['x'])] from rfl) ▸
       List.mem_singleton_self _)⟩

/- ### Claims on the Key Generator -/

theorem mem_addKey_of_mem {x c : List Char} {ks : List (List Char)} (h : x ∈ ks) :
    x ∈ addKey ks c := by
  rw [addKey]
  split
  · exact List.mem_append_left _ h
  · exact h

theorem mem_addKey_self {c : List Char} (ks : List (List Char)) (hc : c ≠ []) :
    c ∈ addKey ks c := by
  by_cases hmem : c ∈ ks
  · exact mem_addKey_of_mem hmem
  · rw [addKey, if_pos ⟨hc, hmem⟩]
    exact List.mem_append_right _ (List.mem_singleton_self c)

theorem mem_foldl_addKey_of_mem {x : List Char} {ks : List (List Char)}
    (l : List (List Char)) (h : x ∈ ks) : x ∈ l.foldl addKey ks := by
  induction l generalizing ks with
  | nil => exact h
  | cons c rest ih => exact ih (mem_addKey_of_mem h)

theorem mem_foldl_addKey {c : List Char} {l : List (List Char)}
    (ks : List (List Char)) (hc : c ≠ []) (hmem : c ∈ l) :
    c ∈ l.foldl addKey ks := by
  induction l generalizing ks with
  | nil => simp at hmem
  | cons d rest ih =>
    rcases List.mem_cons.mp hmem with h1 | h1
    · rw [List.foldl_cons, ← h1]
      exact mem_foldl_addKey_of_mem rest (mem_addKey_self ks hc)
    · exact ih (addKey ks d) h1

theorem natToChars_ne_nil (n : Nat) : natToChars n ≠ [] := by
  rw [natToChars]
  split
  · simp
  · simp

theorem intToChars_ne_nil (n : Int) : intToChars n ≠ [] := by
  rw [intToChars]
  split
  · simp
  · exact natToChars_ne_nil _

theorem zfill_ne_nil {s : List Char} (w : Nat) (h : s ≠ []) : zfill w s ≠ [] := by
  rw [zfill]
  split
  · exact h
  · simp [h]

theorem append_cons_ne_nil (a : List Char) (c : Char) (b : List Char) :
    a ++ c :: b ≠ [] := by
  simp

/-- C5 (amended): the candidate key set for the fragment at index `i` of
unit `u` contains `"{u}.{i}"`, the variants with `i` zero-padded to 2 and
3 digits, the hyphen- and colon-delimited variants, and the bare index
zero-padded to widths 1, 2 and 3 — the unit ordinal itself is never
zero-padded. -/
theorem c5_generated_keys_amended :
    ∀ (u : Int) (i : Nat),
      intToChars u ++ '.' :: natToChars i ∈ generate_commentary_keys u i ∧
      intToChars u ++ '.' :: pad2 i ∈ generate_commentary_keys u i ∧
      intToChars u ++ '.' :: pad3 i ∈ generate_commentary_keys u i ∧
      intToChars u ++ '-' :: natToChars i ∈ generate_commentary_keys u i ∧
      intToChars u ++ ':' :: natToChars i ∈ generate_commentary_keys u i ∧
      zfill 1 (natToChars i) ∈ generate_commentary_keys u i ∧
      zfill 2 (natToChars i) ∈ generate_commentary_keys u i ∧
      zfill 3 (natToChars i) ∈ generate_commentary_keys u i := by
  intro u i
  rw [generate_commentary_keys]
  refine ⟨?_, ?_, ?_, ?_, ?_, ?_, ?_, ?_⟩
  · exact mem_foldl_addKey_of_mem _
      (mem_foldl_addKey [] (append_cons_ne_nil _ _ _) (by simp))
  · exact mem_foldl_addKey_of_mem _
      (mem_foldl_addKey [] (append_cons_ne_nil _ _ _) (by simp))
  · exact mem_foldl_addKey_of_mem _
      (mem_foldl_addKey [] (append_cons_ne_nil _ _ _) (by simp))
  · exact mem_foldl_addKey_of_mem _
      (mem_foldl_addKey [] (append_cons_ne_nil _ _ _) (by simp))
  · exact mem_foldl_addKey_of_mem _
      (mem_foldl_addKey [] (append_cons_ne_nil _ _ _) (by simp))
  · exact mem_foldl_addKey _ (zfill_ne_nil 1 (natToChars_ne_nil i)) (by simp)
  · exact mem_foldl_addKey _ (zfill_ne_nil 2 (natToChars_ne_nil i)) (by simp)
  · exact mem_foldl_addKey _ (zfill_ne_nil 3 (natToChars_ne_nil i)) (by simp)

unseal natToChars in
/-- C5 counterexample: for unit ordinal 1 and fragment index 2 the
generated key list is exactly
`["1.2", "1.02", "1.002", "1-2", "1:2", "2", "02", "002"]`; no candidate
zero-pads the unit ordinal, so the 2- and 3-digit padded variants of `u`
promised by the claim (such as "01.2", "01.02" or "001.002") are absent. -/
theorem c5_counterexample :
    generate_commentary_keys 1 2 =
      [("1.2").toList, ("1.02").toList, ("1.002").toList, ("1-2").toList,
       ("1:2").toList, ("2").toList, ("02").toList, ("002").toList] ∧
    ("01.2").toList ∉ generate_commentary_keys 1 2 ∧
    ("01.02").toList ∉ generate_commentary_keys 1 2 ∧
    ("001.002").toList ∉ generate_commentary_keys 1 2 := by
  refine ⟨rfl, ?_, ?_, ?_⟩ <;> decide

/- ### C2: the resolver follows the specified matching precedence -/


theorem loopBucket_eq_find? (b : List Segment) (used : List Nat) :
    loopBucket b used = b.find? (fun s => !decide (s.index ∈ used)) := by
  induction b with
  | nil => rfl
  | cons s rest ih =>
    rw [loopBucket]
    by_cases hs : s.index ∈ used
    · rw [if_pos hs, List.find?_cons_of_neg _ (by simp [hs]), ih]
    · rw [if_neg hs, List.find?_cons_of_pos _ (by simp [hs])]

theorem loopSegs_eq_find? (b : List Segment) (used : List Nat) :
    loopSegs b used = b.find? (fun s => !decide (s.index ∈ used)) := by
  induction b with
  | nil => rfl
  | cons s rest ih =>
    rw [loopSegs]
    by_cases hs : s.index ∈ used
    · rw [if_pos hs, List.find?_cons_of_neg _ (by simp [hs]), ih]
    · rw [if_neg hs, List.find?_cons_of_pos _ (by simp [hs])]

theorem loopCands_eq_findSome? (cands : List (List Char))
    (imap : List (List Char × List Segment)) (used : List Nat) :
    loopCands cands imap used = cands.findSome? (fun c =>
      ((mapGet imap c).find? (fun s => !decide (s.index ∈ used))).map (fun s => (s, c))) := by
  induction cands with
  | nil => rfl
  | cons c rest ih =>
    rw [loopCands, loopBucket_eq_find?, List.findSome?_cons]
    cases hf : (mapGet imap c).find? (fun s => !decide (s.index ∈ used)) with
    | none => simpa using ih
    | some s => simp

/-- Shared continuation of both resolver formulations: turn the result of
the matched phase and of the fallback scan into the returned tuple. -/
def resolveStep (hit : Option (Segment × List Char)) (fb : Option Segment)
    (used : List Nat) : Option Segment × String × Option (List Char) × List Nat :=
  match hit with
  | some (seg, c) => (some seg, statusMatched, some c, usedAdd used seg.index)
  | Option.none =>
    match fb with
    | some seg => (some seg, statusFallback, seg.keys.head?, usedAdd used seg.index)
    | Option.none => (Option.none, statusMissing, Option.none, used)

/-- C2: for every marker, resolution follows the specified precedence —
the order-token candidate keys are tried in generation order against the
lookup table skipping consumed fragments (status `matched` on a hit); on
total miss the next unconsumed fragment in original sequential order is
taken (status `fallback`); with no unconsumed fragment left, the resolver
still returns a result with no segment and status `missing`, whose
commentary payload carries empty (`None`) content — no exception exists,
the resolver is a total function. -/
theorem c2_resolution_precedence :
    (∀ order siman segments imap used,
      resolve_commentary_segment order siman segments imap used =
        resolveSpecPrecedence order siman segments imap used) ∧
    (∀ order commentator display ckey sec siman cleanFlag matchedKey,
      (build_commentary_payload Option.none statusMissing order commentator display
        ckey sec siman cleanFlag matchedKey).content = Option.none) := by
  refine ⟨?_, ?_⟩
  case refine_2 =>
    intro order commentator display ckey sec siman cleanFlag matchedKey
    rfl
  intro order siman segments imap used
  cases order with
  | none =>
    show resolveStep Option.none (loopSegs segments used) used =
      resolveStep Option.none (segments.find? (fun s => !decide (s.index ∈ used))) used
    rw [loopSegs_eq_find?]
  | some o =>
    cases o with
    | nil =>
      show resolveStep Option.none (loopSegs segments used) used =
        resolveStep (List.findSome? (fun c =>
            ((mapGet imap c).find? (fun s => !decide (s.index ∈ used))).map (fun s => (s, c)))
          (normalise_order_candidates [] siman))
          (segments.find? (fun s => !decide (s.index ∈ used))) used
      rw [loopSegs_eq_find?, normalise_order_candidates]
      rfl
    | cons ch chs =>
      show resolveStep (loopCands (normalise_order_candidates (ch :: chs) siman) imap used)
          (loopSegs segments used) used =
        resolveStep (List.findSome? (fun c =>
            ((mapGet imap c).find? (fun s => !decide (s.index ∈ used))).map (fun s => (s, c)))
          (normalise_order_candidates (ch :: chs) siman))
          (segments.find? (fun s => !decide (s.index ∈ used))) used
      rw [loopSegs_eq_find?, loopCands_eq_findSome?]

/- ### Properties of the resolver loops -/

theorem loopBucket_not_used {b : List Segment} {used : List Nat} {s : Segment}
    (h : loopBucket b used = some s) : s.index ∉ used := by
  induction b with
  | nil => simp [loopBucket] at h
  | cons a rest ih =>
    rw [loopBucket] at h
    split at h
    · exact ih h
    · next ha =>
      have : a = s := Option.some.inj h
      exact this ▸ ha

theorem loopBucket_mem {b : List Segment} {used : List Nat} {s : Segment}
    (h : loopBucket b used = some s) : s ∈ b := by
  induction b with
  | nil => simp [loopBucket] at h
  | cons a rest ih =>
    rw [loopBucket] at h
    split at h
    · exact List.mem_cons_of_mem _ (ih h)
    · exact (Option.some.inj h) ▸ List.mem_cons_self _ _

theorem loopSegs_not_used {b : List Segment} {used : List Nat} {s : Segment}
    (h : loopSegs b used = some s) : s.index ∉ used := by
  induction b with
  | nil => simp [loopSegs] at h
  | cons a rest ih =>
    rw [loopSegs] at h
    split at h
    · exact ih h
    · next ha => exact (Option.some.inj h) ▸ ha

theorem loopSegs_mem {b : List Segment} {used : List Nat} {s : Segment}
    (h : loopSegs b used = some s) : s ∈ b := by
  induction b with
  | nil => simp [loopSegs] at h
  | cons a rest ih =>
    rw [loopSegs] at h
    split at h
    · exact List.mem_cons_of_mem _ (ih h)
    · exact (Option.some.inj h) ▸ List.mem_cons_self _ _

theorem loopSegs_none {b : List Segment} {used : List Nat}
    (h : loopSegs b used = Option.none) : ∀ s ∈ b, s.index ∈ used := by
  induction b with
  | nil => simp
  | cons a rest ih =>
    rw [loopSegs] at h
    split at h
    · next ha =>
      intro s hs
      rcases List.mem_cons.mp hs with h1 | h1
      · exact h1 ▸ ha
      · exact ih h s h1
    · exact absurd h (by simp)

theorem loopCands_not_used {cands : List (List Char)}
    {imap : List (List Char × List Segment)} {used : List Nat}
    {s : Segment} {c : List Char}
    (h : loopCands cands imap used = some (s, c)) : s.index ∉ used := by
  induction cands with
  | nil => simp [loopCands] at h
  | cons d rest ih =>
    rw [loopCands] at h
    split at h
    · next hb =>
      have := Option.some.inj h
      have hs : _ = s := congrArg Prod.fst this
      exact hs ▸ loopBucket_not_used hb
    · exact ih h

theorem loopCands_mem {cands : List (List Char)}
    {imap : List (List Char × List Segment)} {used : List Nat}
    {s : Segment} {c : List Char}
    (h : loopCands cands imap used = some (s, c)) : ∃ k, s ∈ mapGet imap k := by
  induction cands with
  | nil => simp [loopCands] at h
  | cons d rest ih =>
    rw [loopCands] at h
    split at h
    · next hb =>
      have := Option.some.inj h
      have hs : _ = s := congrArg Prod.fst this
      exact ⟨d, hs ▸ loopBucket_mem hb⟩
    · exact ih h

/-- Whether a match status consumes a fragment. -/
def isConsuming (st : String) : Bool :=
  decide (st = statusMatched ∨ st = statusFallback)

/-- One resolution step either consumes exactly one fresh fragment index
with a consuming status, or consumes nothing and reports `missing` with
every segment already used. -/
theorem resolve_consumes (order : Option (List Char)) (siman : Int)
    (segments : List Segment) (imap : List (List Char × List Segment))
    (used : List Nat) :
    (∃ seg st mk, resolve_commentary_segment order siman segments imap used =
        (some seg, st, mk, seg.index :: used) ∧ isConsuming st = true ∧
        seg.index ∉ used ∧ (seg ∈ segments ∨ ∃ k, seg ∈ mapGet imap k)) ∨
    ((∀ s ∈ segments, s.index ∈ used) ∧
      resolve_commentary_segment order siman segments imap used =
        (Option.none, statusMissing, Option.none, used)) := by
  have main : ∀ hit : Option (Segment × List Char),
      (∀ s c, hit = some (s, c) → s.index ∉ used ∧ ∃ k, s ∈ mapGet imap k) →
      (∃ seg st mk, resolveStep hit (loopSegs segments used) used =
          (some seg, st, mk, seg.index :: used) ∧ isConsuming st = true ∧
          seg.index ∉ used ∧ (seg ∈ segments ∨ ∃ k, seg ∈ mapGet imap k)) ∨
      ((∀ s ∈ segments, s.index ∈ used) ∧
        resolveStep hit (loopSegs segments used) used =
          (Option.none, statusMissing, Option.none, used)) := by
    intro hit hhit
    cases hit with
    | some p =>
      obtain ⟨s, c⟩ := p
      obtain ⟨hnu, hk⟩ := hhit s c rfl
      left
      refine ⟨s, statusMatched, some c, ?_, by decide, hnu, Or.inr hk⟩
      rw [resolveStep]
      rw [usedAdd, if_neg hnu]
    | none =>
      cases hf : loopSegs segments used with
      | some s =>
        left
        have hnu := loopSegs_not_used hf
        refine ⟨s, statusFallback, s.keys.head?, ?_, by decide, hnu,
          Or.inl (loopSegs_mem hf)⟩
        simp only [resolveStep, hf, usedAdd, if_neg hnu]
      | none =>
        right
        refine ⟨loopSegs_none hf, ?_⟩
        simp only [resolveStep, hf]
  cases order with
  | none =>
    have := main Option.none (by intro s c h; exact absurd h (by simp))
    exact this
  | some o =>
    cases o with
    | nil =>
      have := main Option.none (by intro s c h; exact absurd h (by simp))
      exact this
    | cons ch chs =>
      have := main (loopCands (normalise_order_candidates (ch :: chs) siman) imap used)
        (by
          intro s c h
          exact ⟨loopCands_not_used h, loopCands_mem h⟩)
      exact this

/- ### Consumption invariants of the alignment engine -/

/-- Number of commentary entries whose status consumed a fragment. -/
def consumingCount (es : List Entry) : Nat :=
  (es.filterMap Entry.commentary).countP (fun c => isConsuming c.status)

theorem consumingCount_append (a b : List Entry) :
    consumingCount (a ++ b) = consumingCount a + consumingCount b := by
  rw [consumingCount, List.filterMap_append, List.countP_append]
  rfl

theorem consumingCount_nil : consumingCount [] = 0 := rfl

/-- Unfolding of `consume_main_segment` when no placeholder is found. -/
theorem consume_no_marker {sec : String} {siman : Int} {display : List Char}
    {ckey : String} {segments : List Segment}
    {imap : List (List Char × List Segment)} {cleanFlag : Bool}
    {raw : List Char} {textIndex : Nat} {used : List Nat}
    (hf : findPlaceholder raw = Option.none) :
    consume_main_segment sec siman display ckey segments imap cleanFlag raw textIndex used =
      if raw ≠ [] then
        (let processed := if cleanFlag then clean_text raw else stripWS raw
         if processed ≠ [] then
           ([⟨some (build_text_payload processed raw sec siman (textIndex + 1)),
             Option.none⟩], textIndex + 1, used)
         else ([], textIndex, used))
      else ([], textIndex, used) := by
  rw [consume_main_segment, dif_pos hf]

/-- Unfolding of `consume_main_segment` at the leftmost placeholder. -/
theorem consume_step {sec : String} {siman : Int} {display : List Char}
    {ckey : String} {segments : List Segment}
    {imap : List (List Char × List Segment)} {cleanFlag : Bool}
    {raw before attrText after : List Char} {textIndex : Nat} {used : List Nat}
    (hf : findPlaceholder raw = some (before, attrText, after)) :
    consume_main_segment sec siman display ckey segments imap cleanFlag raw textIndex used =
      (let tp :=
        if before ≠ [] then
          (let processed := if cleanFlag then clean_text before else stripWS before
           if processed ≠ [] then
             some (build_text_payload processed before sec siman (textIndex + 1))
           else Option.none)
        else Option.none
       let textIndex' := if tp.isSome then textIndex + 1 else textIndex
       let attrs := parse_tag_attributes attrText
       let commentator :=
         match attrGet attrs attrCommentator with
         | some v => if v ≠ [] then v else display
         | Option.none => display
       let order := attrGet attrs attrOrder
       let r := resolve_commentary_segment order siman segments imap used
       let cp := build_commentary_payload r.1 r.2.1 order commentator display
         ckey sec siman cleanFlag r.2.2.1
       let rest := consume_main_segment sec siman display ckey segments imap cleanFlag
         after textIndex' r.2.2.2
       (⟨tp, some cp⟩ :: rest.1, rest.2.1, rest.2.2)) := by
  have hp : ¬ findPlaceholder raw = Option.none := by rw [hf]; simp
  rw [consume_main_segment, dif_neg hp]
  simp only [hf, Option.get_some]

/-- The text index after one placeholder step. -/
def nextTextIndex (cleanFlag : Bool) (before : List Char) (textIndex : Nat) : Nat :=
  if before ≠ [] ∧ (if cleanFlag then clean_text before else stripWS before) ≠ [] then
    textIndex + 1
  else textIndex

theorem consume_step_parts {sec : String} {siman : Int} {display : List Char}
    {ckey : String} {segments : List Segment}
    {imap : List (List Char × List Segment)} {cleanFlag : Bool}
    {raw before attrText after : List Char} {textIndex : Nat} {used : List Nat}
    (hf : findPlaceholder raw = some (before, attrText, after)) :
    ∃ tp : Option TextPayload,
      consume_main_segment sec siman display ckey segments imap cleanFlag raw textIndex used =
        (⟨tp, some (build_commentary_payload
            (resolve_commentary_segment (attrGet (parse_tag_attributes attrText) attrOrder)
              siman segments imap used).1
            (resolve_commentary_segment (attrGet (parse_tag_attributes attrText) attrOrder)
              siman segments imap used).2.1
            (attrGet (parse_tag_attributes attrText) attrOrder)
            (match attrGet (parse_tag_attributes attrText) attrCommentator with
             | some v => if v ≠ [] then v else display
             | Option.none => display)
            display ckey sec siman cleanFlag
            (resolve_commentary_segment (attrGet (parse_tag_attributes attrText) attrOrder)
              siman segments imap used).2.2.1)⟩ ::
          (consume_main_segment sec siman display ckey segments imap cleanFlag after
            (nextTextIndex cleanFlag before textIndex)
            (resolve_commentary_segment (attrGet (parse_tag_attributes attrText) attrOrder)
              siman segments imap used).2.2.2).1,
         (consume_main_segment sec siman display ckey segments imap cleanFlag after
            (nextTextIndex cleanFlag before textIndex)
            (resolve_commentary_segment (attrGet (parse_tag_attributes attrText) attrOrder)
              siman segments imap used).2.2.2).2.1,
         (consume_main_segment sec siman display ckey segments imap cleanFlag after
            (nextTextIndex cleanFlag before textIndex)
            (resolve_commentary_segment (attrGet (parse_tag_attributes attrText) attrOrder)
              siman segments imap used).2.2.2).2.2) := by
  refine ⟨if before ≠ [] then
      (let processed := if cleanFlag then clean_text before else stripWS before
       if processed ≠ [] then
         some (build_text_payload processed before sec siman (textIndex + 1))
       else Option.none)
    else Option.none, ?_⟩
  rw [consume_step hf]
  have hti : (if (if before ≠ [] then
      (let processed := if cleanFlag then clean_text before else stripWS before
       if processed ≠ [] then
         some (build_text_payload processed before sec siman (textIndex + 1))
       else Option.none)
    else Option.none).isSome then textIndex + 1 else textIndex) =
      nextTextIndex cleanFlag before textIndex := by
    by_cases h1 : before ≠ []
    · by_cases h2 : (if cleanFlag then clean_text before else stripWS before) ≠ []
      · simp [nextTextIndex, h1, h2]
      · simp [nextTextIndex, h1, h2]
    · simp [nextTextIndex, h1]
  simp only [hti]

theorem build_commentary_payload_status (seg? : Option Segment) (st : String)
    (order : Option (List Char)) (cmt display : List Char) (ckey sec : String)
    (siman : Int) (cf : Bool) (mk : Option (List Char)) :
    (build_commentary_payload seg? st order cmt display ckey sec siman cf mk).status = st :=
  rfl

theorem build_commentary_payload_comment_index (seg? : Option Segment) (st : String)
    (order : Option (List Char)) (cmt display : List Char) (ckey sec : String)
    (siman : Int) (cf : Bool) (mk : Option (List Char)) :
    (build_commentary_payload seg? st order cmt display ckey sec siman cf mk).comment_index =
      seg?.map Segment.index := by
  cases seg? with
  | none => rfl
  | some seg => rfl

theorem consumingCount_cons_commentary (tp : Option TextPayload)
    (cp : CommentaryPayload) (es : List Entry) :
    consumingCount (⟨tp, some cp⟩ :: es) =
      (if isConsuming cp.status then 1 else 0) + consumingCount es := by
  rw [consumingCount, List.filterMap_cons]
  show ((some cp).elim id List.cons ((es.filterMap Entry.commentary))).countP _ = _
  rw [Option.elim]
  rw [List.countP_cons]
  rw [Nat.add_comm]
  rfl

theorem consume_no_marker_flat {sec : String} {siman : Int} {display : List Char}
    {ckey : String} {segments : List Segment}
    {imap : List (List Char × List Segment)} {cleanFlag : Bool}
    {raw : List Char} {textIndex : Nat} {used : List Nat}
    (hf : findPlaceholder raw = Option.none) :
    consume_main_segment sec siman display ckey segments imap cleanFlag raw textIndex used =
      if raw ≠ [] ∧ (if cleanFlag then clean_text raw else stripWS raw) ≠ [] then
        ([⟨some (build_text_payload (if cleanFlag then clean_text raw else stripWS raw)
          raw sec siman (textIndex + 1)), Option.none⟩], textIndex + 1, used)
      else ([], textIndex, used) := by
  rw [consume_no_marker hf]
  by_cases h1 : raw ≠ []
  · by_cases h2 : (if cleanFlag then clean_text raw else stripWS raw) ≠ []
    · rw [if_pos h1, if_pos (⟨h1, h2⟩ : raw ≠ [] ∧ _)]
      rw [if_pos h2]
    · rw [if_pos h1, if_neg (show ¬(raw ≠ [] ∧
        (if cleanFlag then clean_text raw else stripWS raw) ≠ []) from fun hc => h2 hc.2)]
      rw [if_neg h2]
  · rw [if_neg h1, if_neg (show ¬(raw ≠ [] ∧
      (if cleanFlag then clean_text raw else stripWS raw) ≠ []) from fun hc => h1 hc.1)]

theorem consume_no_marker_parts {sec : String} {siman : Int} {display : List Char}
    {ckey : String} {segments : List Segment}
    {imap : List (List Char × List Segment)} {cleanFlag : Bool}
    {raw : List Char} {textIndex : Nat} {used : List Nat}
    (hf : findPlaceholder raw = Option.none) :
    ((consume_main_segment sec siman display ckey segments imap cleanFlag
      raw textIndex used).2.2 = used) ∧
    (consumingCount (consume_main_segment sec siman display ckey segments imap cleanFlag
      raw textIndex used).1 = 0) ∧
    (∀ e ∈ (consume_main_segment sec siman display ckey segments imap cleanFlag
      raw textIndex used).1, e.commentary = Option.none ∧ e.text.isSome) ∧
    ((consume_main_segment sec siman display ckey segments imap cleanFlag
      raw textIndex used).1.length =
      if raw ≠ [] ∧ (if cleanFlag then clean_text raw else stripWS raw) ≠ []
      then 1 else 0) := by
  rw [consume_no_marker_flat hf]
  by_cases hc : raw ≠ [] ∧ (if cleanFlag then clean_text raw else stripWS raw) ≠ []
  · rw [if_pos hc, if_pos hc]
    refine ⟨rfl, rfl, ?_, rfl⟩
    intro e he
    rcases List.mem_singleton.mp he with rfl
    exact ⟨rfl, rfl⟩
  · rw [if_neg hc, if_neg hc]
    refine ⟨rfl, rfl, ?_, rfl⟩
    intro e he
    exact absurd he (List.not_mem_nil e)

theorem consume_invariant (sec : String) (siman : Int) (display : List Char)
    (ckey : String) (segments : List Segment)
    (imap : List (List Char × List Segment)) (cleanFlag : Bool)
    (himap : ∀ k s, s ∈ mapGet imap k → s ∈ segments) :
    ∀ raw textIndex used,
      (∀ i ∈ used, i ∈ (consume_main_segment sec siman display ckey segments imap
        cleanFlag raw textIndex used).2.2) ∧
      (∀ i ∈ (consume_main_segment sec siman display ckey segments imap
        cleanFlag raw textIndex used).2.2, i ∈ used ∨ ∃ s ∈ segments, s.index = i) ∧
      (used.Nodup →
        (consume_main_segment sec siman display ckey segments imap
          cleanFlag raw textIndex used).2.2.Nodup ∧
        (consume_main_segment sec siman display ckey segments imap
          cleanFlag raw textIndex used).2.2.length =
          used.length + consumingCount (consume_main_segment sec siman display ckey
            segments imap cleanFlag raw textIndex used).1) := by
  have key : ∀ n raw, raw.length ≤ n → ∀ textIndex used,
      (∀ i ∈ used, i ∈ (consume_main_segment sec siman display ckey segments imap
        cleanFlag raw textIndex used).2.2) ∧
      (∀ i ∈ (consume_main_segment sec siman display ckey segments imap
        cleanFlag raw textIndex used).2.2, i ∈ used ∨ ∃ s ∈ segments, s.index = i) ∧
      (used.Nodup →
        (consume_main_segment sec siman display ckey segments imap
          cleanFlag raw textIndex used).2.2.Nodup ∧
        (consume_main_segment sec siman display ckey segments imap
          cleanFlag raw textIndex used).2.2.length =
          used.length + consumingCount (consume_main_segment sec siman display ckey
            segments imap cleanFlag raw textIndex used).1) := by
    intro n
    induction n with
    | zero =>
      intro raw hlen textIndex used
      have hraw : raw = [] := List.eq_nil_of_length_eq_zero (Nat.le_zero.mp hlen)
      subst hraw
      obtain ⟨hused, hcc, _, _⟩ :=
        @consume_no_marker_parts sec siman display ckey segments imap cleanFlag
          [] textIndex used rfl
      rw [hused, hcc]
      exact ⟨fun i hi => hi, fun i hi => Or.inl hi, fun hnd => ⟨hnd, by omega⟩⟩
    | succ n ih =>
      intro raw hlen textIndex used
      cases hf : findPlaceholder raw with
      | none =>
        obtain ⟨hused, hcc, _, _⟩ := consume_no_marker_parts hf
        rw [hused, hcc]
        exact ⟨fun i hi => hi, fun i hi => Or.inl hi, fun hnd => ⟨hnd, by omega⟩⟩
      | some m =>
        obtain ⟨before, attrText, after⟩ := m
        obtain ⟨tp, hstep⟩ := consume_step_parts hf
        rw [hstep]
        have hafter : after.length ≤ n := by
          have := findPlaceholder_length hf
          omega
        obtain ⟨hmono, hsub, hcnt⟩ := ih after hafter
          (nextTextIndex cleanFlag before textIndex)
          (resolve_commentary_segment (attrGet (parse_tag_attributes attrText) attrOrder)
            siman segments imap used).2.2.2
        rcases resolve_consumes (attrGet (parse_tag_attributes attrText) attrOrder)
            siman segments imap used with
          ⟨seg, st, mk, heq, hcons, hfresh, horigin⟩ | ⟨hall, heq⟩
        · refine ⟨?_, ?_, ?_⟩
          · intro i hi
            apply hmono
            rw [heq]
            exact List.mem_cons_of_mem _ hi
          · intro i hi
            rcases hsub i hi with h1 | h1
            · rw [heq] at h1
              rcases List.mem_cons.mp h1 with h2 | h2
              · right
                rcases horigin with ho | ⟨k, ho⟩
                · exact ⟨seg, ho, h2.symm⟩
                · exact ⟨seg, himap k seg ho, h2.symm⟩
              · exact Or.inl h2
            · exact Or.inr h1
          · intro hnd
            have hnd' : (resolve_commentary_segment
                (attrGet (parse_tag_attributes attrText) attrOrder)
                siman segments imap used).2.2.2.Nodup := by
              rw [heq]
              exact List.nodup_cons.mpr ⟨hfresh, hnd⟩
            obtain ⟨hnd2, hlen2⟩ := hcnt hnd'
            refine ⟨hnd2, ?_⟩
            rw [hlen2, consumingCount_cons_commentary, build_commentary_payload_status]
            rw [show (resolve_commentary_segment
              (attrGet (parse_tag_attributes attrText) attrOrder)
              siman segments imap used).2.1 = st from by rw [heq]]
            rw [hcons]
            rw [show (resolve_commentary_segment
              (attrGet (parse_tag_attributes attrText) attrOrder)
              siman segments imap used).2.2.2 = seg.index :: used from by rw [heq]]
            simp only [List.length_cons]
            simp only [if_true]
            omega
        · refine ⟨?_, ?_, ?_⟩
          · intro i hi
            apply hmono
            rw [heq]
            exact hi
          · intro i hi
            rcases hsub i hi with h1 | h1
            · rw [heq] at h1
              exact Or.inl h1
            · exact Or.inr h1
          · intro hnd
            have hnd' : (resolve_commentary_segment
                (attrGet (parse_tag_attributes attrText) attrOrder)
                siman segments imap used).2.2.2.Nodup := by
              rw [heq]
              exact hnd
            obtain ⟨hnd2, hlen2⟩ := hcnt hnd'
            refine ⟨hnd2, ?_⟩
            rw [hlen2, consumingCount_cons_commentary, build_commentary_payload_status]
            rw [show (resolve_commentary_segment
              (attrGet (parse_tag_attributes attrText) attrOrder)
              siman segments imap used).2.1 = statusMissing from by rw [heq]]
            rw [show isConsuming statusMissing = false from by decide]
            rw [show (resolve_commentary_segment
              (attrGet (parse_tag_attributes attrText) attrOrder)
              siman segments imap used).2.2.2 = used from by rw [heq]]
            simp only [Bool.false_eq_true, if_false]
            omega
  intro raw textIndex used
  exact key raw.length raw le_rfl textIndex used

/- ### Properties of the prepared segments -/

theorem mapGet_mapAppend {m : List (List Char × List Segment)} {k k' : List Char}
    {seg s : Segment} (h : s ∈ mapGet (mapAppend m k seg) k') :
    s ∈ mapGet m k' ∨ s = seg := by
  induction m with
  | nil =>
    rw [mapAppend, mapGet] at h
    split at h
    · rcases List.mem_singleton.mp h with rfl
      right
      rfl
    · rw [mapGet] at h
      exact absurd h (List.not_mem_nil s)
  | cons p rest ih =>
    obtain ⟨k2, b⟩ := p
    rw [mapAppend] at h
    by_cases hk : k2 = k
    · rw [if_pos hk, mapGet] at h
      by_cases hk' : k2 = k'
      · rw [if_pos hk'] at h
        rcases List.mem_append.mp h with h1 | h1
        · left
          rw [mapGet, if_pos hk']
          exact h1
        · right
          exact List.mem_singleton.mp h1
      · rw [if_neg hk'] at h
        left
        rw [mapGet, if_neg hk']
        exact h
    · rw [if_neg hk, mapGet] at h
      by_cases hk' : k2 = k'
      · rw [if_pos hk'] at h
        left
        rw [mapGet, if_pos hk']
        exact h
      · rw [if_neg hk'] at h
        rcases ih h with h1 | h1
        · left
          rw [mapGet, if_neg hk']
          exact h1
        · right
          exact h1

theorem mapGet_foldl_mapAppend {keys : List (List Char)}
    {m : List (List Char × List Segment)} {seg s : Segment} {k' : List Char}
    (h : s ∈ mapGet (keys.foldl (fun acc k => mapAppend acc k seg) m) k') :
    s ∈ mapGet m k' ∨ s = seg := by
  induction keys generalizing m with
  | nil => exact Or.inl h
  | cons k rest ih =>
    rw [List.foldl_cons] at h
    rcases ih h with h1 | h1
    · exact mapGet_mapAppend h1
    · exact Or.inr h1

theorem prepareGo_spec (siman : Int) :
    ∀ (frs : List (Option (List Char))) (idx : Nat) (segsAcc : List Segment)
      (imapAcc : List (List Char × List Segment)),
      (∃ t, (prepareGo siman frs idx segsAcc imapAcc).1 = segsAcc ++ t) ∧
      (∀ k s, s ∈ mapGet (prepareGo siman frs idx segsAcc imapAcc).2 k →
        s ∈ mapGet imapAcc k ∨ s ∈ (prepareGo siman frs idx segsAcc imapAcc).1) := by
  intro frs
  induction frs with
  | nil =>
    intro idx segsAcc imapAcc
    exact ⟨⟨[], by rw [prepareGo, List.append_nil]⟩, fun k s h => Or.inl h⟩
  | cons fr rest ih =>
    intro idx segsAcc imapAcc
    cases fr with
    | none =>
      rw [prepareGo]
      exact ih (idx + 1) segsAcc imapAcc
    | some raw =>
      rw [prepareGo]
      obtain ⟨⟨t, ht⟩, hmap⟩ := ih (idx + 1)
        (segsAcc ++ [⟨idx, raw, clean_text raw, generate_commentary_keys siman idx⟩])
        ((generate_commentary_keys siman idx).foldl
          (fun m k => mapAppend m k ⟨idx, raw, clean_text raw, generate_commentary_keys siman idx⟩)
          imapAcc)
      refine ⟨⟨⟨idx, raw, clean_text raw, generate_commentary_keys siman idx⟩ :: t, by
        rw [ht, List.append_assoc]
        rfl⟩, ?_⟩
      intro k s h
      rcases hmap k s h with h1 | h1
      · rcases mapGet_foldl_mapAppend h1 with h2 | h2
        · exact Or.inl h2
        · right
          rw [ht]
          rw [h2]
          exact List.mem_append_left t (List.mem_append_right segsAcc
            (List.mem_singleton_self _))
      · exact Or.inr h1

theorem prepareGo_map_some (siman : Int) :
    ∀ (l : List (List Char)) (idx : Nat) (segsAcc : List Segment)
      (imapAcc : List (List Char × List Segment)),
      (prepareGo siman (l.map some) idx segsAcc imapAcc).1.map Segment.index =
        segsAcc.map Segment.index ++ List.range' idx l.length := by
  intro l
  induction l with
  | nil =>
    intro idx segsAcc imapAcc
    rw [List.map_nil, prepareGo]
    simp [List.range']
  | cons raw rest ih =>
    intro idx segsAcc imapAcc
    rw [List.map_cons, prepareGo, ih]
    rw [List.map_append]
    rw [List.length_cons, List.range'_succ]
    rw [List.append_assoc]
    rfl

theorem prepared_indices (siman : Int) (l : List (List Char)) :
    (prepare_commentary_segments siman (l.map some)).1.map Segment.index =
      List.range' 1 l.length := by
  rw [prepare_commentary_segments, prepareGo_map_some]
  rfl

theorem prepared_length (siman : Int) (l : List (List Char)) :
    (prepare_commentary_segments siman (l.map some)).1.length = l.length := by
  have h := prepared_indices siman l
  have := congrArg List.length h
  rw [List.length_map, List.length_range'] at this
  exact this

theorem prepared_sorted (siman : Int) (l : List (List Char)) :
    List.Pairwise (fun a b : Segment => a.index < b.index)
      (prepare_commentary_segments siman (l.map some)).1 := by
  have h := prepared_indices siman l
  have hr : List.Pairwise (· < ·) (List.range' 1 l.length) := List.pairwise_lt_range' 1 _
  rw [← h] at hr
  exact (List.pairwise_map.mp hr)

theorem prepared_imap_sub (siman : Int) (l : List (List Char)) :
    ∀ k s, s ∈ mapGet (prepare_commentary_segments siman (l.map some)).2 k →
      s ∈ (prepare_commentary_segments siman (l.map some)).1 := by
  intro k s h
  rcases (prepareGo_spec siman (l.map some) 1 [] []).2 k s h with h1 | h1
  · rw [mapGet] at h1
    exact absurd h1 (List.not_mem_nil s)
  · exact h1

theorem nodup_subset_length {l1 l2 : List Nat} (h1 : l1.Nodup)
    (h2 : ∀ i ∈ l1, i ∈ l2) : l1.length ≤ l2.length := by
  calc l1.length = l1.toFinset.card := (List.toFinset_card_of_nodup h1).symm
    _ ≤ l2.toFinset.card := Finset.card_le_card (by
        intro x hx
        rw [List.mem_toFinset] at hx ⊢
        exact h2 x hx)
    _ ≤ l2.length := l2.toFinset_card_le

theorem consumingCount_unplaced (display : List Char) (ckey sec : String)
    (siman : Int) (cleanFlag : Bool) (l : List Segment) :
    consumingCount (l.map (unplacedEntry display ckey sec siman cleanFlag)) = 0 := by
  induction l with
  | nil => rfl
  | cons seg rest ih =>
    rw [List.map_cons]
    rw [show unplacedEntry display ckey sec siman cleanFlag seg =
      ⟨Option.none, some (build_commentary_payload (some seg) statusUnplaced
        seg.keys.head? display display ckey sec siman cleanFlag seg.keys.head?)⟩ from rfl]
    rw [consumingCount_cons_commentary, build_commentary_payload_status]
    rw [show isConsuming statusUnplaced = false from by decide]
    rw [ih]
    rfl

theorem buildStep_fold_invariant (sec : String) (siman : Int) (display : List Char)
    (ckey : String) (segments : List Segment)
    (imap : List (List Char × List Segment)) (cleanFlag : Bool)
    (himap : ∀ k s, s ∈ mapGet imap k → s ∈ segments) :
    ∀ (segsList : List (List Char)) (acc : List Entry × Nat × List Nat),
      acc.2.2.Nodup →
      acc.2.2.length = consumingCount acc.1 →
      (∀ i ∈ acc.2.2, ∃ s ∈ segments, s.index = i) →
      ((segsList.foldl (buildStep sec siman display ckey segments imap cleanFlag)
          acc).2.2.Nodup ∧
        (segsList.foldl (buildStep sec siman display ckey segments imap cleanFlag)
          acc).2.2.length =
          consumingCount (segsList.foldl (buildStep sec siman display ckey segments
            imap cleanFlag) acc).1 ∧
        (∀ i ∈ (segsList.foldl (buildStep sec siman display ckey segments imap
          cleanFlag) acc).2.2, ∃ s ∈ segments, s.index = i)) := by
  intro segsList
  induction segsList with
  | nil =>
    intro acc h1 h2 h3
    exact ⟨h1, h2, h3⟩
  | cons rawSeg rest ih =>
    intro acc h1 h2 h3
    rw [List.foldl_cons]
    by_cases hempty : rawSeg = []
    · rw [show buildStep sec siman display ckey segments imap cleanFlag acc rawSeg = acc
        from by rw [buildStep, if_pos hempty]]
      exact ih acc h1 h2 h3
    · rw [show buildStep sec siman display ckey segments imap cleanFlag acc rawSeg =
        ((acc.1 ++ (consume_main_segment sec siman display ckey segments imap cleanFlag
            rawSeg acc.2.1 acc.2.2).1,
          (consume_main_segment sec siman display ckey segments imap cleanFlag
            rawSeg acc.2.1 acc.2.2).2.1,
          (consume_main_segment sec siman display ckey segments imap cleanFlag
            rawSeg acc.2.1 acc.2.2).2.2)) from by rw [buildStep, if_neg hempty]]
      obtain ⟨_, hsub, hnodlen⟩ := consume_invariant sec siman display ckey segments
        imap cleanFlag himap rawSeg acc.2.1 acc.2.2
      obtain ⟨hnod, hlen⟩ := hnodlen h1
      apply ih
      · exact hnod
      · show (consume_main_segment sec siman display ckey segments imap cleanFlag
          rawSeg acc.2.1 acc.2.2).2.2.length = consumingCount (acc.1 ++ _)
        rw [hlen, consumingCount_append, h2]
      · intro i hi
        rcases hsub i hi with hin | hseg
        · exact h3 i hin
        · exact hseg

/-- C3: fragments are consumed at most once per unit — a resolution step
only ever adds the consumed fragment's index to the used set (never
removing anything, and adding it immediately on success), and over a whole
unit the number of `matched` plus `fallback` commentary entries never
exceeds the number of commentary fragments. -/
theorem c3_at_most_once_consumption :
    (∀ order siman segments imap used,
      (∀ i ∈ used, i ∈ (resolve_commentary_segment order siman segments imap
        used).2.2.2) ∧
      (∀ seg, (resolve_commentary_segment order siman segments imap used).1 =
          some seg →
        seg.index ∉ used ∧
        (resolve_commentary_segment order siman segments imap used).2.2.2 =
          seg.index :: used)) ∧
    (∀ mainContent commContent sec siman display ckey cleanFlag,
      consumingCount (build_embedded_entries mainContent commContent sec siman
        display ckey cleanFlag) ≤ (flatten_to_strings false commContent).length) := by
  constructor
  · intro order siman segments imap used
    rcases resolve_consumes order siman segments imap used with
      ⟨seg, st, mk, heq, _, hfresh, _⟩ | ⟨_, heq⟩
    · constructor
      · intro i hi
        rw [heq]
        exact List.mem_cons_of_mem _ hi
      · intro seg' hseg'
        rw [heq] at hseg'
        have : seg = seg' := Option.some.inj (by simpa using hseg')
        subst this
        rw [heq]
        exact ⟨hfresh, rfl⟩
    · constructor
      · intro i hi
        rw [heq]
        exact hi
      · intro seg' hseg'
        rw [heq] at hseg'
        exact absurd hseg' (by simp)
  · intro mainContent commContent sec siman display ckey cleanFlag
    rw [build_embedded_entries]
    rw [consumingCount_append, consumingCount_unplaced]
    have himap := prepared_imap_sub siman (flatten_to_strings false commContent)
    obtain ⟨hnod, hlen, hsub⟩ := buildStep_fold_invariant sec siman display ckey
      (prepare_commentary_segments siman
        ((flatten_to_strings false commContent).map some)).1
      (prepare_commentary_segments siman
        ((flatten_to_strings false commContent).map some)).2
      cleanFlag himap (flatten_to_strings false mainContent) ([], 0, [])
      List.nodup_nil rfl (by intro i hi; exact absurd hi (List.not_mem_nil i))
    rw [← hlen]
    have hb : ((flatten_to_strings false mainContent).foldl
        (buildStep sec siman display ckey
          (prepare_commentary_segments siman
            ((flatten_to_strings false commContent).map some)).1
          (prepare_commentary_segments siman
            ((flatten_to_strings false commContent).map some)).2 cleanFlag)
        ([], 0, [])).2.2.length ≤
        (flatten_to_strings false commContent).length := by
      have hsubidx : ∀ i ∈ ((flatten_to_strings false mainContent).foldl
          (buildStep sec siman display ckey
            (prepare_commentary_segments siman
              ((flatten_to_strings false commContent).map some)).1
            (prepare_commentary_segments siman
              ((flatten_to_strings false commContent).map some)).2 cleanFlag)
          ([], 0, [])).2.2,
          i ∈ (prepare_commentary_segments siman
            ((flatten_to_strings false commContent).map some)).1.map Segment.index := by
        intro i hi
        obtain ⟨s, hs, hsi⟩ := hsub i hi
        exact List.mem_map.mpr ⟨s, hs, hsi⟩
      have := nodup_subset_length hnod hsubidx
      rw [List.length_map, prepared_length] at this
      exact this
    omega

/-- Witness for C3 at a concrete fallback resolution and a concrete unit. -/
theorem c3_at_most_once_consumption_witness :
    ((⟨1, ['a'], ['a'], [['k']]⟩ : Segment).index ∉ ([] : List Nat)) ∧
    (resolve_commentary_segment Option.none 1 [⟨1, ['a'], ['a'], [['k']]⟩] [] []).2.2.2 =
      [1] ∧
    consumingCount (build_embedded_entries (PyVal.str ("hi").toList)
      (PyVal.str ("c").toList) "S" 1 ("B").toList "B" true) ≤
      (flatten_to_strings false (PyVal.str ("c").toList)).length :=
  ⟨((c3_at_most_once_consumption.1 Option.none 1 [⟨1, ['a'], ['a'], [['k']]⟩] [] []).2
      ⟨1, ['a'], ['a'], [['k']]⟩ rfl).1,
   ((c3_at_most_once_consumption.1 Option.none 1 [⟨1, ['a'], ['a'], [['k']]⟩] [] []).2
      ⟨1, ['a'], ['a'], [['k']]⟩ rfl).2,
   c3_at_most_once_consumption.2 _ _ _ _ _ _ _⟩

/- ### Fallback ordering (C8) -/

theorem loopSegs_min {segments : List Segment} {used : List Nat} {s : Segment}
    (hsort : List.Pairwise (fun a b : Segment => a.index < b.index) segments)
    (h : loopSegs segments used = some s) :
    ∀ t ∈ segments, t.index ∉ used → s.index ≤ t.index := by
  induction segments with
  | nil => simp [loopSegs] at h
  | cons a rest ih =>
    rw [loopSegs] at h
    split at h
    · next ha =>
      intro t ht htu
      rcases List.mem_cons.mp ht with h1 | h1
      · exact absurd (h1 ▸ ha) htu
      · exact ih (List.pairwise_cons.mp hsort).2 h t h1 htu
    · next ha =>
      have hsa : a = s := Option.some.inj h
      subst hsa
      intro t ht _
      rcases List.mem_cons.mp ht with h1 | h1
      · rw [h1]
      · exact Nat.le_of_lt ((List.pairwise_cons.mp hsort).1 t h1)

theorem loopSegs_below_used {segments : List Segment} {used : List Nat} {s : Segment}
    (hsort : List.Pairwise (fun a b : Segment => a.index < b.index) segments)
    (h : loopSegs segments used = some s) :
    ∀ t ∈ segments, t.index < s.index → t.index ∈ used := by
  induction segments with
  | nil => simp [loopSegs] at h
  | cons a rest ih =>
    rw [loopSegs] at h
    split at h
    · next ha =>
      intro t ht htlt
      rcases List.mem_cons.mp ht with h1 | h1
      · exact h1 ▸ ha
      · exact ih (List.pairwise_cons.mp hsort).2 h t h1 htlt
    · next ha =>
      have hsa : a = s := Option.some.inj h
      subst hsa
      intro t ht htlt
      rcases List.mem_cons.mp ht with h1 | h1
      · exact absurd (h1 ▸ htlt) (lt_irrefl _)
      · exact absurd htlt (not_lt_of_gt ((List.pairwise_cons.mp hsort).1 t h1))

/-- Case analysis of one resolution: matched, fallback, or missing, with
the source of the consumed segment. -/
theorem resolve_cases3 (order : Option (List Char)) (siman : Int)
    (segments : List Segment) (imap : List (List Char × List Segment))
    (used : List Nat) :
    (∃ seg c, resolve_commentary_segment order siman segments imap used =
        (some seg, statusMatched, some c, seg.index :: used) ∧ seg.index ∉ used) ∨
    (∃ seg, loopSegs segments used = some seg ∧
      resolve_commentary_segment order siman segments imap used =
        (some seg, statusFallback, seg.keys.head?, seg.index :: used) ∧
      seg.index ∉ used) ∨
    ((∀ s ∈ segments, s.index ∈ used) ∧
      resolve_commentary_segment order siman segments imap used =
        (Option.none, statusMissing, Option.none, used)) := by
  have main : ∀ hit : Option (Segment × List Char),
      (∀ s c, hit = some (s, c) → s.index ∉ used) →
      (∃ seg c, resolveStep hit (loopSegs segments used) used =
          (some seg, statusMatched, some c, seg.index :: used) ∧ seg.index ∉ used) ∨
      (∃ seg, loopSegs segments used = some seg ∧
        resolveStep hit (loopSegs segments used) used =
          (some seg, statusFallback, seg.keys.head?, seg.index :: used) ∧
        seg.index ∉ used) ∨
      ((∀ s ∈ segments, s.index ∈ used) ∧
        resolveStep hit (loopSegs segments used) used =
          (Option.none, statusMissing, Option.none, used)) := by
    intro hit hhit
    cases hit with
    | some p =>
      obtain ⟨s, c⟩ := p
      have hnu := hhit s c rfl
      left
      refine ⟨s, c, ?_, hnu⟩
      rw [resolveStep, usedAdd, if_neg hnu]
    | none =>
      cases hf : loopSegs segments used with
      | some s =>
        right
        left
        have hnu := loopSegs_not_used hf
        refine ⟨s, rfl, ?_, hnu⟩
        simp only [resolveStep, usedAdd, if_neg hnu]
      | none =>
        right
        right
        refine ⟨loopSegs_none hf, ?_⟩
        simp only [resolveStep, hf]
  cases order with
  | none => exact main Option.none (by intro s c h; exact absurd h (by simp))
  | some o =>
    cases o with
    | nil => exact main Option.none (by intro s c h; exact absurd h (by simp))
    | cons ch chs =>
      exact main (loopCands (normalise_order_candidates (ch :: chs) siman) imap used)
        (by intro s c h; exact loopCands_not_used h)

/-- Sequential indices of the fragments consumed through the fallback
path, in entry order. -/
def fallbackIndices (es : List Entry) : List Nat :=
  (es.filterMap Entry.commentary).filterMap
    (fun c => if c.status = statusFallback then c.comment_index else Option.none)

theorem fallbackIndices_append (a b : List Entry) :
    fallbackIndices (a ++ b) = fallbackIndices a ++ fallbackIndices b := by
  rw [fallbackIndices, List.filterMap_append, List.filterMap_append]
  rfl

theorem fallbackIndices_cons_fb {cp : CommentaryPayload} (tp : Option TextPayload)
    (es : List Entry) (hst : cp.status = statusFallback) {i : Nat}
    (hci : cp.comment_index = some i) :
    fallbackIndices (⟨tp, some cp⟩ :: es) = i :: fallbackIndices es := by
  rw [fallbackIndices, List.filterMap_cons]
  show (List.filterMap _ ((some cp).elim id List.cons
    (es.filterMap Entry.commentary))) = _
  rw [Option.elim, List.filterMap_cons, if_pos hst, hci]
  rfl

theorem fallbackIndices_cons_other {cp : CommentaryPayload} (tp : Option TextPayload)
    (es : List Entry) (hst : cp.status ≠ statusFallback) :
    fallbackIndices (⟨tp, some cp⟩ :: es) = fallbackIndices es := by
  rw [fallbackIndices, List.filterMap_cons]
  show (List.filterMap _ ((some cp).elim id List.cons
    (es.filterMap Entry.commentary))) = _
  rw [Option.elim, List.filterMap_cons, if_neg hst]
  rfl

theorem fallbackIndices_cons_textOnly (tp : Option TextPayload) (es : List Entry) :
    fallbackIndices (⟨tp, Option.none⟩ :: es) = fallbackIndices es := by
  rw [fallbackIndices, List.filterMap_cons]
  rfl

theorem fallbackIndices_unplaced (display : List Char) (ckey sec : String)
    (siman : Int) (cleanFlag : Bool) (l : List Segment) :
    fallbackIndices (l.map (unplacedEntry display ckey sec siman cleanFlag)) = [] := by
  induction l with
  | nil => rfl
  | cons seg rest ih =>
    rw [List.map_cons]
    rw [show unplacedEntry display ckey sec siman cleanFlag seg =
      ⟨Option.none, some (build_commentary_payload (some seg) statusUnplaced
        seg.keys.head? display display ckey sec siman cleanFlag seg.keys.head?)⟩ from rfl]
    rw [fallbackIndices_cons_other _ _ (by
      rw [build_commentary_payload_status]
      decide)]
    exact ih

theorem fallbackIndices_no_marker {sec : String} {siman : Int} {display : List Char}
    {ckey : String} {segments : List Segment}
    {imap : List (List Char × List Segment)} {cleanFlag : Bool}
    {raw : List Char} {textIndex : Nat} {used : List Nat}
    (hf : findPlaceholder raw = Option.none) :
    fallbackIndices (consume_main_segment sec siman display ckey segments imap cleanFlag
      raw textIndex used).1 = [] := by
  rw [consume_no_marker_flat hf]
  by_cases hc : raw ≠ [] ∧ (if cleanFlag then clean_text raw else stripWS raw) ≠ []
  · rw [if_pos hc]
    show fallbackIndices [⟨some (build_text_payload (if cleanFlag then clean_text raw
      else stripWS raw) raw sec siman (textIndex + 1)), Option.none⟩] = []
    rw [fallbackIndices_cons_textOnly]
    rfl
  · rw [if_neg hc]
    rfl

theorem consume_fallback_chain (sec : String) (siman : Int) (display : List Char)
    (ckey : String) (segments : List Segment)
    (imap : List (List Char × List Segment)) (cleanFlag : Bool)
    (hsort : List.Pairwise (fun a b : Segment => a.index < b.index) segments)
    (himap : ∀ k s, s ∈ mapGet imap k → s ∈ segments) :
    ∀ raw textIndex used,
      (∀ j ∈ fallbackIndices (consume_main_segment sec siman display ckey segments
        imap cleanFlag raw textIndex used).1,
        j ∉ used ∧ ∃ s ∈ segments, s.index = j) ∧
      (∀ j ∈ fallbackIndices (consume_main_segment sec siman display ckey segments
        imap cleanFlag raw textIndex used).1,
        ∀ s ∈ segments, s.index ≤ j →
          s.index ∈ (consume_main_segment sec siman display ckey segments
            imap cleanFlag raw textIndex used).2.2) ∧
      List.Pairwise (· < ·) (fallbackIndices (consume_main_segment sec siman display
        ckey segments imap cleanFlag raw textIndex used).1) := by
  have key : ∀ n raw, raw.length ≤ n → ∀ textIndex used,
      (∀ j ∈ fallbackIndices (consume_main_segment sec siman display ckey segments
        imap cleanFlag raw textIndex used).1,
        j ∉ used ∧ ∃ s ∈ segments, s.index = j) ∧
      (∀ j ∈ fallbackIndices (consume_main_segment sec siman display ckey segments
        imap cleanFlag raw textIndex used).1,
        ∀ s ∈ segments, s.index ≤ j →
          s.index ∈ (consume_main_segment sec siman display ckey segments
            imap cleanFlag raw textIndex used).2.2) ∧
      List.Pairwise (· < ·) (fallbackIndices (consume_main_segment sec siman display
        ckey segments imap cleanFlag raw textIndex used).1) := by
    intro n
    induction n with
    | zero =>
      intro raw hlen textIndex used
      have hraw : raw = [] := List.eq_nil_of_length_eq_zero (Nat.le_zero.mp hlen)
      subst hraw
      rw [fallbackIndices_no_marker (show findPlaceholder [] = Option.none from rfl)]
      exact ⟨fun j hj => absurd hj (List.not_mem_nil j),
        fun j hj => absurd hj (List.not_mem_nil j), List.Pairwise.nil⟩
    | succ n ih =>
      intro raw hlen textIndex used
      cases hf : findPlaceholder raw with
      | none =>
        rw [fallbackIndices_no_marker hf]
        exact ⟨fun j hj => absurd hj (List.not_mem_nil j),
          fun j hj => absurd hj (List.not_mem_nil j), List.Pairwise.nil⟩
      | some m =>
        obtain ⟨before, attrText, after⟩ := m
        obtain ⟨tp, hstep⟩ := consume_step_parts hf
        rw [hstep]
        have hafter : after.length ≤ n := by
          have := findPlaceholder_length hf
          omega
        obtain ⟨ih1, ih2, ih3⟩ := ih after hafter
          (nextTextIndex cleanFlag before textIndex)
          (resolve_commentary_segment (attrGet (parse_tag_attributes attrText) attrOrder)
            siman segments imap used).2.2.2
        rcases resolve_cases3 (attrGet (parse_tag_attributes attrText) attrOrder)
            siman segments imap used with
          ⟨seg, c, heq, hfresh⟩ | ⟨seg, hLS, heq, hfresh⟩ | ⟨hall, heq⟩
        · rw [fallbackIndices_cons_other tp _ (by
            rw [build_commentary_payload_status]
            rw [show (resolve_commentary_segment
              (attrGet (parse_tag_attributes attrText) attrOrder)
              siman segments imap used).2.1 = statusMatched from by rw [heq]]
            decide)]
          have hr5 : (resolve_commentary_segment
              (attrGet (parse_tag_attributes attrText) attrOrder)
              siman segments imap used).2.2.2 = seg.index :: used := by rw [heq]
          refine ⟨?_, ?_, ih3⟩
          · intro j hj
            obtain ⟨hnu, hex⟩ := ih1 j hj
            rw [hr5] at hnu
            exact ⟨fun hju => hnu (List.mem_cons_of_mem _ hju), hex⟩
          · intro j hj s hs hsj
            exact ih2 j hj s hs hsj
        · have hstat : (build_commentary_payload (resolve_commentary_segment
              (attrGet (parse_tag_attributes attrText) attrOrder)
              siman segments imap used).1 (resolve_commentary_segment
              (attrGet (parse_tag_attributes attrText) attrOrder)
              siman segments imap used).2.1
              (attrGet (parse_tag_attributes attrText) attrOrder)
              (match attrGet (parse_tag_attributes attrText) attrCommentator with
               | some v => if v ≠ [] then v else display
               | Option.none => display) display ckey sec siman cleanFlag
              (resolve_commentary_segment
                (attrGet (parse_tag_attributes attrText) attrOrder)
                siman segments imap used).2.2.1).status = statusFallback := by
            rw [build_commentary_payload_status]
            rw [show (resolve_commentary_segment
              (attrGet (parse_tag_attributes attrText) attrOrder)
              siman segments imap used).2.1 = statusFallback from by rw [heq]]
          have hci : (build_commentary_payload (resolve_commentary_segment
              (attrGet (parse_tag_attributes attrText) attrOrder)
              siman segments imap used).1 (resolve_commentary_segment
              (attrGet (parse_tag_attributes attrText) attrOrder)
              siman segments imap used).2.1
              (attrGet (parse_tag_attributes attrText) attrOrder)
              (match attrGet (parse_tag_attributes attrText) attrCommentator with
               | some v => if v ≠ [] then v else display
               | Option.none => display) display ckey sec siman cleanFlag
              (resolve_commentary_segment
                (attrGet (parse_tag_attributes attrText) attrOrder)
                siman segments imap used).2.2.1).comment_index = some seg.index := by
            rw [build_commentary_payload_comment_index]
            rw [show (resolve_commentary_segment
              (attrGet (parse_tag_attributes attrText) attrOrder)
              siman segments imap used).1 = some seg from by rw [heq]]
            rfl
          rw [fallbackIndices_cons_fb tp _ hstat hci]
          have hr5 : (resolve_commentary_segment
              (attrGet (parse_tag_attributes attrText) attrOrder)
              siman segments imap used).2.2.2 = seg.index :: used := by rw [heq]
          have hmono := (consume_invariant sec siman display ckey segments imap cleanFlag
            himap after (nextTextIndex cleanFlag before textIndex)
            (resolve_commentary_segment (attrGet (parse_tag_attributes attrText) attrOrder)
              siman segments imap used).2.2.2).1
          refine ⟨?_, ?_, ?_⟩
          · intro j hj
            rcases List.mem_cons.mp hj with h1 | h1
            · exact h1 ▸ ⟨hfresh, seg, loopSegs_mem hLS, rfl⟩
            · obtain ⟨hnu, hex⟩ := ih1 j h1
              rw [hr5] at hnu
              exact ⟨fun hju => hnu (List.mem_cons_of_mem _ hju), hex⟩
          · intro j hj s hs hsj
            rcases List.mem_cons.mp hj with h1 | h1
            · subst h1
              rcases Nat.lt_or_ge s.index seg.index with hlt | hge
              · apply hmono
                rw [hr5]
                exact List.mem_cons_of_mem _ (loopSegs_below_used hsort hLS s hs hlt)
              · have : s.index = seg.index := Nat.le_antisymm hsj hge
                apply hmono
                rw [hr5, this]
                exact List.mem_cons_self _ _
            · exact ih2 j h1 s hs hsj
          · rw [List.pairwise_cons]
            refine ⟨?_, ih3⟩
            intro j hj
            obtain ⟨hnu, s2, hs2, hs2j⟩ := ih1 j hj
            rw [hr5] at hnu
            by_contra hnot
            rcases Nat.lt_or_ge j seg.index with hlt | hge
            · have : s2.index ∈ used := loopSegs_below_used hsort hLS s2 hs2 (by omega)
              exact hnu (List.mem_cons_of_mem _ (hs2j ▸ this))
            · have : j = seg.index := by omega
              exact hnu (this ▸ List.mem_cons_self _ _)
        · rw [fallbackIndices_cons_other tp _ (by
            rw [build_commentary_payload_status]
            rw [show (resolve_commentary_segment
              (attrGet (parse_tag_attributes attrText) attrOrder)
              siman segments imap used).2.1 = statusMissing from by rw [heq]]
            decide)]
          have hr5 : (resolve_commentary_segment
              (attrGet (parse_tag_attributes attrText) attrOrder)
              siman segments imap used).2.2.2 = used := by rw [heq]
          refine ⟨?_, ?_, ih3⟩
          · intro j hj
            obtain ⟨hnu, hex⟩ := ih1 j hj
            rw [hr5] at hnu
            exact ⟨hnu, hex⟩
          · intro j hj s hs hsj
            exact ih2 j hj s hs hsj
  intro raw textIndex used
  exact key raw.length raw le_rfl textIndex used

theorem buildStep_fallback_fold (sec : String) (siman : Int) (display : List Char)
    (ckey : String) (segments : List Segment)
    (imap : List (List Char × List Segment)) (cleanFlag : Bool)
    (hsort : List.Pairwise (fun a b : Segment => a.index < b.index) segments)
    (himap : ∀ k s, s ∈ mapGet imap k → s ∈ segments) :
    ∀ (segsList : List (List Char)) (acc : List Entry × Nat × List Nat),
      (∀ j ∈ fallbackIndices acc.1, ∀ s ∈ segments, s.index ≤ j → s.index ∈ acc.2.2) →
      List.Pairwise (· < ·) (fallbackIndices acc.1) →
      ((∀ j ∈ fallbackIndices (segsList.foldl (buildStep sec siman display ckey segments
          imap cleanFlag) acc).1, ∀ s ∈ segments, s.index ≤ j →
          s.index ∈ (segsList.foldl (buildStep sec siman display ckey segments
            imap cleanFlag) acc).2.2) ∧
        List.Pairwise (· < ·) (fallbackIndices (segsList.foldl (buildStep sec siman
          display ckey segments imap cleanFlag) acc).1)) := by
  intro segsList
  induction segsList with
  | nil =>
    intro acc h1 h2
    exact ⟨h1, h2⟩
  | cons rawSeg rest ih =>
    intro acc h1 h2
    rw [List.foldl_cons]
    by_cases hempty : rawSeg = []
    · rw [show buildStep sec siman display ckey segments imap cleanFlag acc rawSeg = acc
        from by rw [buildStep, if_pos hempty]]
      exact ih acc h1 h2
    · rw [show buildStep sec siman display ckey segments imap cleanFlag acc rawSeg =
        ((acc.1 ++ (consume_main_segment sec siman display ckey segments imap cleanFlag
            rawSeg acc.2.1 acc.2.2).1,
          (consume_main_segment sec siman display ckey segments imap cleanFlag
            rawSeg acc.2.1 acc.2.2).2.1,
          (consume_main_segment sec siman display ckey segments imap cleanFlag
            rawSeg acc.2.1 acc.2.2).2.2)) from by rw [buildStep, if_neg hempty]]
      obtain ⟨f1, f2, f3⟩ := consume_fallback_chain sec siman display ckey segments imap
        cleanFlag hsort himap rawSeg acc.2.1 acc.2.2
      have hmono := (consume_invariant sec siman display ckey segments imap cleanFlag
        himap rawSeg acc.2.1 acc.2.2).1
      apply ih
      · intro j hj s hs hsj
        rw [show ((acc.1 ++ (consume_main_segment sec siman display ckey segments imap
            cleanFlag rawSeg acc.2.1 acc.2.2).1,
            (consume_main_segment sec siman display ckey segments imap cleanFlag
              rawSeg acc.2.1 acc.2.2).2.1,
            (consume_main_segment sec siman display ckey segments imap cleanFlag
              rawSeg acc.2.1 acc.2.2).2.2) : List Entry × Nat × List Nat).1 =
          acc.1 ++ (consume_main_segment sec siman display ckey segments imap cleanFlag
            rawSeg acc.2.1 acc.2.2).1 from rfl, fallbackIndices_append] at hj
        show s.index ∈ (consume_main_segment sec siman display ckey segments imap
          cleanFlag rawSeg acc.2.1 acc.2.2).2.2
        rcases List.mem_append.mp hj with hja | hjb
        · exact hmono _ (h1 j hja s hs hsj)
        · exact f2 j hjb s hs hsj
      · rw [show ((acc.1 ++ (consume_main_segment sec siman display ckey segments imap
            cleanFlag rawSeg acc.2.1 acc.2.2).1,
            (consume_main_segment sec siman display ckey segments imap cleanFlag
              rawSeg acc.2.1 acc.2.2).2.1,
            (consume_main_segment sec siman display ckey segments imap cleanFlag
              rawSeg acc.2.1 acc.2.2).2.2) : List Entry × Nat × List Nat).1 =
          acc.1 ++ (consume_main_segment sec siman display ckey segments imap cleanFlag
            rawSeg acc.2.1 acc.2.2).1 from rfl, fallbackIndices_append]
        rw [List.pairwise_append]
        refine ⟨h2, f3, ?_⟩
        intro a ha b hb
        obtain ⟨hbnu, sb, hsb, hsbi⟩ := f1 b hb
        by_contra hnot
        have hble : sb.index ≤ a := by omega
        exact hbnu (hsbi ▸ h1 a ha sb hsb hble)

/-- Two prepared commentary fragments for the C8 witness. -/
def c8Segs : List Segment := [⟨1, ['a'], ['a'], []⟩, ⟨2, ['b'], ['b'], []⟩]

/-- C8: fallback resolution is deterministic and order-preserving — whenever
`_resolve_commentary_segment` returns status `fallback` on an index-sorted
fragment list, the fragment it selects is the unconsumed fragment of smallest
sequential index; consequently, across the markers of a whole unit the
fragments consumed via fallback appear in strictly increasing index order. -/
theorem c8_fallback_order :
    (∀ order siman segments imap used,
      List.Pairwise (fun a b : Segment => a.index < b.index) segments →
      (resolve_commentary_segment order siman segments imap used).2.1 =
        statusFallback →
      ∃ seg, (resolve_commentary_segment order siman segments imap used).1 =
          some seg ∧
        seg.index ∉ used ∧
        ∀ t ∈ segments, t.index ∉ used → seg.index ≤ t.index) ∧
    (∀ mainContent commContent sec siman display ckey cleanFlag,
      List.Pairwise (· < ·) (fallbackIndices
        (build_embedded_entries mainContent commContent sec siman display ckey
          cleanFlag))) := by
  constructor
  · intro order siman segments imap used hsort hst
    rcases resolve_cases3 order siman segments imap used with
      ⟨seg, c, heq, _⟩ | ⟨seg, hLS, heq, hfresh⟩ | ⟨_, heq⟩
    · rw [heq] at hst
      exact absurd hst (show ¬statusMatched = statusFallback by decide)
    · refine ⟨seg, by rw [heq], hfresh, ?_⟩
      exact loopSegs_min hsort hLS
    · rw [heq] at hst
      exact absurd hst (show ¬statusMissing = statusFallback by decide)
  · intro mainContent commContent sec siman display ckey cleanFlag
    rw [build_embedded_entries]
    rw [fallbackIndices_append, fallbackIndices_unplaced, List.append_nil]
    have hsort := prepared_sorted siman (flatten_to_strings false commContent)
    have himap := prepared_imap_sub siman (flatten_to_strings false commContent)
    exact (buildStep_fallback_fold sec siman display ckey
      (prepare_commentary_segments siman
        ((flatten_to_strings false commContent).map some)).1
      (prepare_commentary_segments siman
        ((flatten_to_strings false commContent).map some)).2
      cleanFlag hsort himap (flatten_to_strings false mainContent) ([], 0, [])
      (fun j hj => absurd hj (List.not_mem_nil j)) List.Pairwise.nil).2

/-- Witness for C8: with fragment 1 already consumed and no order token, the
resolver falls back to fragment 2, the smallest unconsumed index. -/
theorem c8_fallback_order_witness :
    (List.Pairwise (fun a b : Segment => a.index < b.index) c8Segs ∧
      (resolve_commentary_segment Option.none 1 c8Segs [] [1]).2.1 =
        statusFallback) ∧
    ∃ seg, (resolve_commentary_segment Option.none 1 c8Segs [] [1]).1 = some seg ∧
      seg.index ∉ [1] ∧ ∀ t ∈ c8Segs, t.index ∉ [1] → seg.index ≤ t.index :=
  ⟨⟨by decide, by decide⟩,
    c8_fallback_order.1 Option.none 1 c8Segs [] [1] (by decide) (by decide)⟩

/-- The `status` fields of the commentary entries, in order. -/
def commentaryStatuses (es : List Entry) : List String :=
  (es.filterMap Entry.commentary).map CommentaryPayload.status

/-- The `comment_index` fields of the commentary entries, in order. -/
def commentaryIndices (es : List Entry) : List (Option Nat) :=
  (es.filterMap Entry.commentary).map CommentaryPayload.comment_index

theorem filterMap_commentary_cons_some {cp : CommentaryPayload}
    (tp : Option TextPayload) (es : List Entry) :
    (Entry.mk tp (some cp) :: es).filterMap Entry.commentary =
      cp :: es.filterMap Entry.commentary := by
  rw [List.filterMap_cons]

theorem commentaryStatuses_cons_some {cp : CommentaryPayload}
    (tp : Option TextPayload) (es : List Entry) :
    commentaryStatuses (Entry.mk tp (some cp) :: es) =
      cp.status :: commentaryStatuses es := rfl

theorem commentaryIndices_cons_some {cp : CommentaryPayload}
    (tp : Option TextPayload) (es : List Entry) :
    commentaryIndices (Entry.mk tp (some cp) :: es) =
      cp.comment_index :: commentaryIndices es := rfl

theorem commentaryStatuses_append (a b : List Entry) :
    commentaryStatuses (a ++ b) = commentaryStatuses a ++ commentaryStatuses b := by
  rw [commentaryStatuses, List.filterMap_append, List.map_append]
  rfl

theorem commentaryIndices_append (a b : List Entry) :
    commentaryIndices (a ++ b) = commentaryIndices a ++ commentaryIndices b := by
  rw [commentaryIndices, List.filterMap_append, List.map_append]
  rfl

theorem commentaryStatuses_textOnly {ts : List Entry}
    (h : ∀ e ∈ ts, e.commentary = Option.none ∧ e.text.isSome) :
    commentaryStatuses ts = [] := by
  rw [commentaryStatuses, List.filterMap_eq_nil.mpr (fun e he => (h e he).1)]
  rfl

theorem commentaryIndices_textOnly {ts : List Entry}
    (h : ∀ e ∈ ts, e.commentary = Option.none ∧ e.text.isSome) :
    commentaryIndices ts = [] := by
  rw [commentaryIndices, List.filterMap_eq_nil.mpr (fun e he => (h e he).1)]
  rfl

theorem commentaryStatuses_unplaced (display : List Char) (ckey sec : String)
    (siman : Int) (cleanFlag : Bool) (l : List Segment) :
    commentaryStatuses (l.map (unplacedEntry display ckey sec siman cleanFlag)) =
      List.replicate l.length statusUnplaced := by
  induction l with
  | nil => rfl
  | cons seg rest ih =>
    rw [List.map_cons, show unplacedEntry display ckey sec siman cleanFlag seg =
      ⟨Option.none, some (build_commentary_payload (some seg) statusUnplaced
        seg.keys.head? display display ckey sec siman cleanFlag seg.keys.head?)⟩
      from rfl]
    rw [commentaryStatuses_cons_some, ih]
    rfl

theorem commentaryIndices_unplaced (display : List Char) (ckey sec : String)
    (siman : Int) (cleanFlag : Bool) (l : List Segment) :
    commentaryIndices (l.map (unplacedEntry display ckey sec siman cleanFlag)) =
      (l.map Segment.index).map some := by
  induction l with
  | nil => rfl
  | cons seg rest ih =>
    rw [List.map_cons, show unplacedEntry display ckey sec siman cleanFlag seg =
      ⟨Option.none, some (build_commentary_payload (some seg) statusUnplaced
        seg.keys.head? display display ckey sec siman cleanFlag seg.keys.head?)⟩
      from rfl]
    rw [commentaryIndices_cons_some, ih]
    rw [List.map_cons, List.map_cons]
    rfl

theorem buildStep_no_marker_fold (sec : String) (siman : Int) (display : List Char)
    (ckey : String) (segments : List Segment)
    (imap : List (List Char × List Segment)) (cleanFlag : Bool) :
    ∀ (segsList : List (List Char)) (acc : List Entry × Nat × List Nat),
      (∀ r ∈ segsList, findPlaceholder r = Option.none) →
      ∃ ts : List Entry,
        (segsList.foldl (buildStep sec siman display ckey segments imap cleanFlag)
          acc).1 = acc.1 ++ ts ∧
        (∀ e ∈ ts, e.commentary = Option.none ∧ e.text.isSome) ∧
        ts.length = (segsList.filter (fun r => decide (r ≠ []) &&
          decide ((if cleanFlag then clean_text r else stripWS r) ≠ []))).length ∧
        (segsList.foldl (buildStep sec siman display ckey segments imap cleanFlag)
          acc).2.2 = acc.2.2 := by
  intro segsList
  induction segsList with
  | nil =>
    intro acc _
    exact ⟨[], (List.append_nil acc.1).symm, fun e he => absurd he (List.not_mem_nil e),
      rfl, rfl⟩
  | cons rawSeg rest ih =>
    intro acc hnm
    have hf : findPlaceholder rawSeg = Option.none := hnm rawSeg (List.mem_cons_self _ _)
    have hrest : ∀ r ∈ rest, findPlaceholder r = Option.none :=
      fun r hr => hnm r (List.mem_cons_of_mem _ hr)
    rw [List.foldl_cons]
    by_cases hempty : rawSeg = []
    · rw [show buildStep sec siman display ckey segments imap cleanFlag acc rawSeg = acc
        from by rw [buildStep, if_pos hempty]]
      obtain ⟨ts, h1, h2, h3, h4⟩ := ih acc hrest
      refine ⟨ts, h1, h2, ?_, h4⟩
      rw [List.filter_cons, show (decide (rawSeg ≠ []) &&
        decide ((if cleanFlag then clean_text rawSeg else stripWS rawSeg) ≠ [])) = false
        from by rw [hempty]; rfl]
      exact h3
    · rw [show buildStep sec siman display ckey segments imap cleanFlag acc rawSeg =
        ((acc.1 ++ (consume_main_segment sec siman display ckey segments imap cleanFlag
            rawSeg acc.2.1 acc.2.2).1,
          (consume_main_segment sec siman display ckey segments imap cleanFlag
            rawSeg acc.2.1 acc.2.2).2.1,
          (consume_main_segment sec siman display ckey segments imap cleanFlag
            rawSeg acc.2.1 acc.2.2).2.2)) from by rw [buildStep, if_neg hempty]]
      obtain ⟨hused, _, htext, hlen⟩ :=
        @consume_no_marker_parts sec siman display ckey segments imap cleanFlag
          rawSeg acc.2.1 acc.2.2 hf
      obtain ⟨ts, h1, h2, h3, h4⟩ := ih
        ((acc.1 ++ (consume_main_segment sec siman display ckey segments imap cleanFlag
            rawSeg acc.2.1 acc.2.2).1,
          (consume_main_segment sec siman display ckey segments imap cleanFlag
            rawSeg acc.2.1 acc.2.2).2.1,
          (consume_main_segment sec siman display ckey segments imap cleanFlag
            rawSeg acc.2.1 acc.2.2).2.2)) hrest
      refine ⟨(consume_main_segment sec siman display ckey segments imap cleanFlag
          rawSeg acc.2.1 acc.2.2).1 ++ ts, ?_, ?_, ?_, ?_⟩
      · rw [h1, List.append_assoc]
      · intro e he
        rcases List.mem_append.mp he with h5 | h5
        · exact htext e h5
        · exact h2 e h5
      · rw [List.length_append, h3, List.filter_cons]
        by_cases hc : rawSeg ≠ [] ∧
            (if cleanFlag then clean_text rawSeg else stripWS rawSeg) ≠ []
        · rw [hlen, if_pos hc, show (decide (rawSeg ≠ []) &&
            decide ((if cleanFlag then clean_text rawSeg else stripWS rawSeg) ≠ [])) =
            true from by
              rw [Bool.and_eq_true, decide_eq_true_eq, decide_eq_true_eq]
              exact hc]
          rw [if_pos rfl, List.length_cons]
          omega
        · rw [hlen, if_neg hc, show (decide (rawSeg ≠ []) &&
            decide ((if cleanFlag then clean_text rawSeg else stripWS rawSeg) ≠ [])) =
            false from by
              rw [Bool.and_eq_false_iff]
              rw [decide_eq_false_iff_not, decide_eq_false_iff_not]
              by_cases hr : rawSeg = []
              · exact Or.inl (fun hh => hh hr)
              · exact Or.inr (fun hh => hc ⟨hr, hh⟩)]
          rw [if_neg Bool.false_ne_true]
          omega
      · rw [h4]
        exact hused

theorem filter_not_mem_nil (l : List Segment) :
    l.filter (fun seg => !decide (seg.index ∈ ([] : List Nat))) = l := by
  induction l with
  | nil => rfl
  | cons seg rest ih =>
    rw [List.filter_cons, show (!decide (seg.index ∈ ([] : List Nat))) = true from rfl, ih]
    rw [if_pos rfl]

/-- C1 (amended): when the flattened primary text of a unit contains no
markers, the engine emits one text entry per nonempty flattened main
segment (not one entry for the whole unit), followed by every one of the
N commentary fragments in original sequential order — carrying status
`unplaced`, not `fallback`. -/
theorem c1_no_marker_amended (mainContent commContent : PyVal) (sec : String)
    (siman : Int) (display : List Char) (ckey : String) (cleanFlag : Bool)
    (hnm : ∀ r ∈ flatten_to_strings false mainContent,
      findPlaceholder r = Option.none) :
    ∃ ts : List Entry,
      build_embedded_entries mainContent commContent sec siman display ckey cleanFlag =
        ts ++ (prepare_commentary_segments siman
            ((flatten_to_strings false commContent).map some)).1.map
          (unplacedEntry display ckey sec siman cleanFlag) ∧
      (∀ e ∈ ts, e.commentary = Option.none ∧ e.text.isSome) ∧
      ts.length = ((flatten_to_strings false mainContent).filter
        (fun r => decide (r ≠ []) &&
          decide ((if cleanFlag then clean_text r else stripWS r) ≠ []))).length ∧
      commentaryStatuses (build_embedded_entries mainContent commContent sec siman
          display ckey cleanFlag) =
        List.replicate (flatten_to_strings false commContent).length statusUnplaced ∧
      commentaryIndices (build_embedded_entries mainContent commContent sec siman
          display ckey cleanFlag) =
        (List.range' 1 (flatten_to_strings false commContent).length).map some := by
  obtain ⟨ts, h1, h2, h3, h4⟩ := buildStep_no_marker_fold sec siman display ckey
    (prepare_commentary_segments siman
      ((flatten_to_strings false commContent).map some)).1
    (prepare_commentary_segments siman
      ((flatten_to_strings false commContent).map some)).2
    cleanFlag (flatten_to_strings false mainContent) ([], 0, []) hnm
  have hbuild : build_embedded_entries mainContent commContent sec siman display ckey
      cleanFlag = ts ++ (prepare_commentary_segments siman
        ((flatten_to_strings false commContent).map some)).1.map
      (unplacedEntry display ckey sec siman cleanFlag) := by
    rw [build_embedded_entries]
    rw [show ((flatten_to_strings false mainContent).foldl
      (buildStep sec siman display ckey
        (prepare_commentary_segments siman
          ((flatten_to_strings false commContent).map some)).1
        (prepare_commentary_segments siman
          ((flatten_to_strings false commContent).map some)).2 cleanFlag)
      ([], 0, [])).1 = ([] : List Entry) ++ ts from h1]
    rw [show ((flatten_to_strings false mainContent).foldl
      (buildStep sec siman display ckey
        (prepare_commentary_segments siman
          ((flatten_to_strings false commContent).map some)).1
        (prepare_commentary_segments siman
          ((flatten_to_strings false commContent).map some)).2 cleanFlag)
      ([], 0, [])).2.2 = ([] : List Nat) from h4]
    rw [filter_not_mem_nil, List.nil_append]
  refine ⟨ts, hbuild, h2, h3, ?_, ?_⟩
  · rw [hbuild, commentaryStatuses_append, commentaryStatuses_textOnly h2,
      commentaryStatuses_unplaced, prepared_length, List.nil_append]
  · rw [hbuild, commentaryIndices_append, commentaryIndices_textOnly h2,
      commentaryIndices_unplaced, prepared_indices, List.nil_append]

/-- Primary text for the C1 refutation: two flattened segments, no markers. -/
def c1Main : PyVal := PyVal.list [PyVal.str ['a'], PyVal.str ['b']]

/-- Commentary for the C1 refutation: a single fragment. -/
def c1Comm : PyVal := PyVal.str ['c']

unseal natToChars removeTags collapseWS digitRuns attrMatches consume_main_segment in
/-- C1 counterexample: a unit whose flattened primary text has zero markers
and one commentary fragment produces two text entries (one per flattened
segment, not one for the whole unit) and its commentary entry carries
status `unplaced`, not `fallback`. -/
theorem c1_counterexample :
    (∀ r ∈ flatten_to_strings false c1Main, findPlaceholder r = Option.none) ∧
    (flatten_to_strings false c1Comm).length = 1 ∧
    ((build_embedded_entries c1Main c1Comm "S" 1 ['B'] "B" true).filter
      (fun e => e.text.isSome)).length = 2 ∧
    commentaryStatuses (build_embedded_entries c1Main c1Comm "S" 1 ['B'] "B" true) =
      [statusUnplaced] ∧
    statusUnplaced ≠ statusFallback := by
  decide

/-- Witness for the amended C1 theorem at a concrete marker-free unit. -/
theorem c1_no_marker_amended_witness :
    (∀ r ∈ flatten_to_strings false c1Main, findPlaceholder r = Option.none) ∧
    ∃ ts : List Entry,
      build_embedded_entries c1Main c1Comm "S" 1 ['B'] "B" true =
        ts ++ (prepare_commentary_segments 1
            ((flatten_to_strings false c1Comm).map some)).1.map
          (unplacedEntry ['B'] "B" "S" 1 true) ∧
      (∀ e ∈ ts, e.commentary = Option.none ∧ e.text.isSome) ∧
      ts.length = ((flatten_to_strings false c1Main).filter
        (fun r => decide (r ≠ []) &&
          decide ((if true then clean_text r else stripWS r) ≠ []))).length ∧
      commentaryStatuses (build_embedded_entries c1Main c1Comm "S" 1 ['B'] "B" true) =
        List.replicate (flatten_to_strings false c1Comm).length statusUnplaced ∧
      commentaryIndices (build_embedded_entries c1Main c1Comm "S" 1 ['B'] "B" true) =
        (List.range' 1 (flatten_to_strings false c1Comm).length).map some :=
  ⟨by decide, c1_no_marker_amended c1Main c1Comm "S" 1 ['B'] "B" true (by decide)⟩
